import Mathlib

/-!
Verification development for the polyphonic audio engine in
src/src/lib/audio/AudioEngine.ts.

The engine's voice-manager state (the JS `Map` of live voices plus the
relevant scalar parameters), its note-on/note-off operations, the WAV
encoder, the additive-spectrum builder, the parameter setters and the
offline-render graph construction are shallowly embedded below.  JS
numbers are modelled by `ℚ` (the code performs only field operations,
comparisons, `Math.floor` and clamping on the paths under study); the
one place where a non-finite JS number (NaN/Infinity) can arise — the
`2 / M` scaling of the spectrum builder at `M = 0` — is modelled by
`Option ℚ` with `none` standing for a non-finite value.  Transcendental
functions (`Math.cos`, `Math.sin`, `Math.PI`, `Math.log2`, `Math.pow`)
are passed in as explicit function parameters so that every definition
stays executable; theorems instantiate them with the real functions
where the claim demands it.
-/

/-- Linear interpolation `a + (b - a) * t`, from `AudioEngine.lerp`
(AudioEngine.ts line 904). -/
def lerp (a b t : ℚ) : ℚ := a + (b - a) * t

/-- Clamp a sample to `[-1, 1]`: `Math.max(-1, Math.min(1, x))`
(AudioEngine.ts lines 979, 1072). -/
def clamp1 (x : ℚ) : ℚ := max (-1) (min 1 x)

/-- Kind of the currently selected instrument definition
(`InstrumentDefinition.kind`, AudioEngine.ts lines 46-51). -/
inductive Instr where
  | engine
  | sample
  | drumkit
deriving DecidableEq

/-- Kind tag of a live voice (`VoiceState`, AudioEngine.ts lines 16-44). -/
inductive VoiceKind where
  | synth
  | sample
  | drum
deriving DecidableEq

/-- Key of the live-voice map `this.voices`.  The JS map is keyed by
`string | number`: plain note-on ids (numbers, `VKey.note`), the literal
string `"drone"` for the legacy test tone (`VKey.drone`), and the
composite drum key `` `${id}-${now.toFixed(6)}` `` built at
AudioEngine.ts line 687 (`VKey.drum id stamp`).  A composite drum string
never collides with a numeric id or with `"drone"`, which the separate
constructor captures. -/
inductive VKey where
  | drone
  | note (id : ℕ)
  | drum (id : ℕ) (stamp : ℚ)
deriving DecidableEq

/-- The per-voice record fields that the claims under study depend on:
the kind tag, the start timestamp used for steal ordering
(`startedAt`), and the peak level scheduled on the voice's amplitude
envelope (the `peak` computed at AudioEngine.ts lines 619, 650, 683).
The audio nodes themselves (oscillators, filter, panners) are not
modelled. -/
structure Voice where
  kind : VoiceKind
  startedAt : ℚ
  ampPeak : ℚ
deriving DecidableEq

/-- The engine state relevant to voice lifecycle: the insertion-ordered
live-voice map (JS `Map` iteration order is insertion order), the
polyphony cap `maxVoices`, the amplitude velocity sensitivity
`ampVelSense`, and the kind of the currently selected instrument. -/
structure Engine where
  voices : List (VKey × Voice)
  maxVoices : ℕ
  ampVelSense : ℚ
  instrument : Instr
deriving DecidableEq

/-- `this.voices.has(k)` on the insertion-ordered association list. -/
def mapHas (vs : List (VKey × Voice)) (k : VKey) : Bool :=
  vs.any fun kv => decide (kv.1 = k)

/-- `this.voices.get(k)`. -/
def mapGet (vs : List (VKey × Voice)) (k : VKey) : Option Voice :=
  (vs.find? fun kv => decide (kv.1 = k)).map Prod.snd

/-- `this.voices.set(k, v)`: replace in place when the key is present,
append otherwise (JS `Map` semantics). -/
def mapSet (vs : List (VKey × Voice)) (k : VKey) (v : Voice) :
    List (VKey × Voice) :=
  if mapHas vs k then vs.map fun kv => if kv.1 = k then (k, v) else kv
  else vs ++ [(k, v)]

/-- `this.voices.delete(k)`. -/
def mapDelete (vs : List (VKey × Voice)) (k : VKey) : List (VKey × Voice) :=
  vs.filter fun kv => decide (kv.1 ≠ k)

/-- `noteOff(id)` (AudioEngine.ts lines 698-742): when a live voice
exists under the key it is removed from the map in every branch
(synth, sample and drum all call `this.voices.delete(id)`); the ramp
scheduling and deferred node disconnection do not affect the map and
are elided.  When the key is absent the call is a no-op, which the
unconditional filter also models. -/
def noteOff (e : Engine) (id : VKey) : Engine :=
  { e with voices := mapDelete e.voices id }

/-- One iteration of the `forEach` inside `enforceVoiceLimit`
(AudioEngine.ts lines 561-566): skip the `"drone"` key, otherwise keep
the entry whose `startedAt` is strictly below the best so far
(`oldestTime` starts at `+∞`, modelled by the `none` accumulator). -/
def stealStep (acc : Option (VKey × ℚ)) (kv : VKey × Voice) :
    Option (VKey × ℚ) :=
  if kv.1 = VKey.drone then acc
  else
    match acc with
    | none => some (kv.1, kv.2.startedAt)
    | some best =>
        if kv.2.startedAt < best.2 then some (kv.1, kv.2.startedAt)
        else some best

/-- The full fold inside `enforceVoiceLimit`, iterating the map in
insertion order. -/
def findOldestAcc (vs : List (VKey × Voice)) (acc : Option (VKey × ℚ)) :
    Option (VKey × ℚ) :=
  vs.foldl stealStep acc

/-- The stolen key chosen by `enforceVoiceLimit`. -/
def findOldest (vs : List (VKey × Voice)) : Option VKey :=
  (findOldestAcc vs none).map Prod.fst

/-- `enforceVoiceLimit` (AudioEngine.ts lines 557-569): when
`this.voices.size >= this.maxVoices` the oldest non-drone voice is
released via `noteOff`. -/
def enforceVoiceLimit (e : Engine) : Engine :=
  if e.voices.length < e.maxVoices then e
  else
    match findOldest e.voices with
    | some k => noteOff e k
    | none => e

/-- `noteOnSynth` (AudioEngine.ts lines 571-625), restricted to the
voice-map effect: store a synth voice under the plain id with
`startedAt = now` and amplitude-envelope peak
`lerp(1, velocity, ampVelSense)` (line 619).  Oscillator, unison,
panner and filter nodes are elided. -/
def noteOnSynth (e : Engine) (noteNumber : ℕ) (velocity : ℚ) (id : ℕ)
    (now : ℚ) : Engine :=
  { e with
    voices := mapSet e.voices (VKey.note id)
      { kind := VoiceKind.synth, startedAt := now,
        ampPeak := lerp 1 velocity e.ampVelSense } }

/-- `noteOnSample` (AudioEngine.ts lines 627-669) with its buffer
already cached (the not-yet-loaded path defers the call and creates no
voice): peak `lerp(1, velocity, ampVelSense)` (line 650). -/
def noteOnSample (e : Engine) (noteNumber : ℕ) (velocity : ℚ) (id : ℕ)
    (now : ℚ) : Engine :=
  { e with
    voices := mapSet e.voices (VKey.note id)
      { kind := VoiceKind.sample, startedAt := now,
        ampPeak := lerp 1 velocity e.ampVelSense } }

/-- `noteOnDrum` (AudioEngine.ts lines 671-696) with its buffer already
cached: the voice is stored under the composite key
`` `${id}-${now.toFixed(6)}` `` and its gain is set to
`lerp(0.2, velocity, ampVelSense)` (line 683). -/
def noteOnDrum (e : Engine) (noteNumber : ℕ) (velocity : ℚ) (id : ℕ)
    (now : ℚ) : Engine :=
  { e with
    voices := mapSet e.voices (VKey.drum id now)
      { kind := VoiceKind.drum, startedAt := now,
        ampPeak := lerp (1/5) velocity e.ampVelSense } }

/-- `noteOn` (AudioEngine.ts lines 537-555) with the current instrument
ready (no pending `instrumentReady` promise): for a non-drum instrument
an existing live voice under the id suppresses the retrigger and the
voice limit is enforced before dispatch; for a drum kit both steps are
skipped. -/
def noteOn (e : Engine) (noteNumber : ℕ) (velocity : ℚ) (id : ℕ)
    (now : ℚ) : Engine :=
  if e.instrument ≠ Instr.drumkit ∧ mapHas e.voices (VKey.note id) then e
  else
    let e1 := if e.instrument ≠ Instr.drumkit then enforceVoiceLimit e else e
    match e.instrument with
    | Instr.engine => noteOnSynth e1 noteNumber velocity id now
    | Instr.sample => noteOnSample e1 noteNumber velocity id now
    | Instr.drumkit => noteOnDrum e1 noteNumber velocity id now

/-- A list of `noteOn` calls at strictly increasing context times
`t0, t0 + 1, …` (the audio context clock advances between calls;
distinct call sites see distinct `currentTime` values). -/
def mkCalls : List ℕ → ℕ → List (ℕ × ℚ)
  | [], _ => []
  | id :: rest, t0 => (id, (t0 : ℚ)) :: mkCalls rest (t0 + 1)

/-- Run a sequence of `noteOn(60, 1, id)` calls at the given times. -/
def runNoteOns (e : Engine) (calls : List (ℕ × ℚ)) : Engine :=
  calls.foldl (fun s c => noteOn s 60 1 c.1 c.2) e

/-- A fresh engine with polyphony cap `n`, the built-in synth selected
and the default `ampVelSense = 1` (AudioEngine.ts lines 113, 119, 124). -/
def initEngine (n : ℕ) : Engine :=
  { voices := [], maxVoices := n, ampVelSense := 1, instrument := Instr.engine }

/-- A fresh engine with the drum kit selected. -/
def drumEngine (n : ℕ) : Engine :=
  { voices := [], maxVoices := n, ampVelSense := 1, instrument := Instr.drumkit }

/-- Is this key a composite drum key? -/
def VKey.isDrumKey : VKey → Bool
  | VKey.drum _ _ => true
  | _ => false

/-- The drum-keyed entries of the voice map. -/
def drumEntries (vs : List (VKey × Voice)) : List (VKey × Voice) :=
  vs.filter fun kv => kv.1.isDrumKey

theorem noteOff_instrument (e : Engine) (k : VKey) :
    (noteOff e k).instrument = e.instrument := rfl

theorem noteOff_ampVelSense (e : Engine) (k : VKey) :
    (noteOff e k).ampVelSense = e.ampVelSense := rfl

theorem noteOff_maxVoices (e : Engine) (k : VKey) :
    (noteOff e k).maxVoices = e.maxVoices := rfl

theorem enforce_instrument (e : Engine) :
    (enforceVoiceLimit e).instrument = e.instrument := by
  unfold enforceVoiceLimit
  split
  · rfl
  · rcases findOldest e.voices with _ | k <;> simp [noteOff]

theorem enforce_ampVelSense (e : Engine) :
    (enforceVoiceLimit e).ampVelSense = e.ampVelSense := by
  unfold enforceVoiceLimit
  split
  · rfl
  · rcases findOldest e.voices with _ | k <;> simp [noteOff]

theorem enforce_maxVoices (e : Engine) :
    (enforceVoiceLimit e).maxVoices = e.maxVoices := by
  unfold enforceVoiceLimit
  split
  · rfl
  · rcases findOldest e.voices with _ | k <;> simp [noteOff]

theorem noteOn_instrument (e : Engine) (n : ℕ) (v : ℚ) (id : ℕ) (t : ℚ) :
    (noteOn e n v id t).instrument = e.instrument := by
  unfold noteOn
  split
  · rfl
  · rcases h : e.instrument <;>
      simp [h, noteOnSynth, noteOnSample, noteOnDrum, enforce_instrument]

theorem noteOn_ampVelSense (e : Engine) (n : ℕ) (v : ℚ) (id : ℕ) (t : ℚ) :
    (noteOn e n v id t).ampVelSense = e.ampVelSense := by
  unfold noteOn
  split
  · rfl
  · rcases h : e.instrument <;>
      simp [h, noteOnSynth, noteOnSample, noteOnDrum, enforce_ampVelSense]

theorem noteOn_maxVoices (e : Engine) (n : ℕ) (v : ℚ) (id : ℕ) (t : ℚ) :
    (noteOn e n v id t).maxVoices = e.maxVoices := by
  unfold noteOn
  split
  · rfl
  · rcases h : e.instrument <;>
      simp [h, noteOnSynth, noteOnSample, noteOnDrum, enforce_maxVoices]

theorem mapHas_eq_true_iff (vs : List (VKey × Voice)) (k : VKey) :
    mapHas vs k = true ↔ ∃ kv ∈ vs, kv.1 = k := by
  simp [mapHas, List.any_eq_true]

theorem mapHas_eq_false_iff (vs : List (VKey × Voice)) (k : VKey) :
    mapHas vs k = false ↔ ∀ kv ∈ vs, kv.1 ≠ k := by
  rw [← Bool.not_eq_true, mapHas_eq_true_iff]
  push_neg
  rfl

theorem mapHas_append (vs ws : List (VKey × Voice)) (k : VKey) :
    mapHas (vs ++ ws) k = (mapHas vs k || mapHas ws k) := by
  simp [mapHas, List.any_append]

theorem mapSet_of_fresh (vs : List (VKey × Voice)) (k : VKey) (v : Voice)
    (h : mapHas vs k = false) : mapSet vs k v = vs ++ [(k, v)] := by
  simp [mapSet, h]

theorem find?_map_replace (vs : List (VKey × Voice)) (k : VKey) (v : Voice)
    (h : mapHas vs k = true) :
    ((vs.map fun kv => if kv.1 = k then (k, v) else kv).find?
      fun kv => decide (kv.1 = k)) = some (k, v) := by
  induction vs with
  | nil => simp [mapHas] at h
  | cons kv rest ih =>
    by_cases hk : kv.1 = k
    · simp [hk, List.find?]
    · have h' : mapHas rest k = true := by
        rw [mapHas_eq_true_iff] at h ⊢
        rcases h with ⟨kv', hmem, hkv'⟩
        rcases List.mem_cons.mp hmem with rfl | hmem'
        · exact absurd hkv' hk
        · exact ⟨kv', hmem', hkv'⟩
      simp [List.find?, hk, ih h']

theorem find?_eq_none_of_not_has (vs : List (VKey × Voice)) (k : VKey)
    (h : mapHas vs k = false) :
    (vs.find? fun kv => decide (kv.1 = k)) = none := by
  rw [List.find?_eq_none]
  intro kv hmem
  have := (mapHas_eq_false_iff vs k).mp h kv hmem
  simpa using this

theorem mapGet_mapSet (vs : List (VKey × Voice)) (k : VKey) (v : Voice) :
    mapGet (mapSet vs k v) k = some v := by
  by_cases h : mapHas vs k = true
  · simp [mapGet, mapSet, h, find?_map_replace vs k v h]
  · have h' : mapHas vs k = false := by
      cases hb : mapHas vs k
      · rfl
      · exact absurd hb h
    rw [mapSet_of_fresh vs k v h']
    simp [mapGet, List.find?_append, find?_eq_none_of_not_has vs k h', List.find?]

/-- Claim C6 (amended): for every `noteOn` with velocity `v` and
amplitude velocity-sensitivity `s`, the amplitude envelope's peak for
the created voice equals `lerp(1, v, s)` for synthesized and sampled
voices, but `lerp(0.2, v, s)` for percussive (drum) voices; with
`s = 0` the synth/sample peak is `1` and the drum peak `0.2`
(independent of `v`), and with `s = 1` the peak equals `v` for every
kind. -/
theorem c6_velocity_peak (e : Engine) (noteNumber : ℕ) (velocity : ℚ)
    (id : ℕ) (now : ℚ)
    (hfresh : mapHas e.voices (VKey.note id) = false) :
    (e.instrument = Instr.engine →
      mapGet (noteOn e noteNumber velocity id now).voices (VKey.note id)
        = some ⟨VoiceKind.synth, now, lerp 1 velocity e.ampVelSense⟩) ∧
    (e.instrument = Instr.sample →
      mapGet (noteOn e noteNumber velocity id now).voices (VKey.note id)
        = some ⟨VoiceKind.sample, now, lerp 1 velocity e.ampVelSense⟩) ∧
    (e.instrument = Instr.drumkit →
      mapGet (noteOn e noteNumber velocity id now).voices (VKey.drum id now)
        = some ⟨VoiceKind.drum, now, lerp (1/5) velocity e.ampVelSense⟩) ∧
    (e.ampVelSense = 0 →
      lerp 1 velocity e.ampVelSense = 1 ∧
      lerp (1/5) velocity e.ampVelSense = 1/5) ∧
    (e.ampVelSense = 1 →
      lerp 1 velocity e.ampVelSense = velocity ∧
      lerp (1/5) velocity e.ampVelSense = velocity) := by
  refine ⟨?_, ?_, ?_, ?_, ?_⟩
  · intro hI
    unfold noteOn
    rw [if_neg (by simp [hfresh])]
    simp [hI, noteOnSynth, mapGet_mapSet, enforce_ampVelSense]
  · intro hI
    unfold noteOn
    rw [if_neg (by simp [hfresh])]
    simp [hI, noteOnSample, mapGet_mapSet, enforce_ampVelSense]
  · intro hI
    unfold noteOn
    rw [if_neg (by simp [hI])]
    simp [hI, noteOnDrum, mapGet_mapSet]
  · intro hs
    constructor <;> simp [lerp, hs]
  · intro hs
    constructor <;> · simp only [lerp, hs]; ring

/-- Witness for C6 at a concrete input: fresh engine, the built-in
synth instrument, velocity 1/2, id 3, time 0. -/
theorem c6_velocity_peak_witness :
    mapHas (initEngine 16).voices (VKey.note 3) = false ∧
    (((initEngine 16).instrument = Instr.engine →
      mapGet (noteOn (initEngine 16) 60 (1/2) 3 0).voices (VKey.note 3)
        = some ⟨VoiceKind.synth, 0, lerp 1 (1/2) (initEngine 16).ampVelSense⟩) ∧
    ((initEngine 16).instrument = Instr.sample →
      mapGet (noteOn (initEngine 16) 60 (1/2) 3 0).voices (VKey.note 3)
        = some ⟨VoiceKind.sample, 0, lerp 1 (1/2) (initEngine 16).ampVelSense⟩) ∧
    ((initEngine 16).instrument = Instr.drumkit →
      mapGet (noteOn (initEngine 16) 60 (1/2) 3 0).voices (VKey.drum 3 0)
        = some ⟨VoiceKind.drum, 0, lerp (1/5) (1/2) (initEngine 16).ampVelSense⟩) ∧
    ((initEngine 16).ampVelSense = 0 →
      lerp 1 (1/2) (initEngine 16).ampVelSense = 1 ∧
      lerp (1/5) (1/2) (initEngine 16).ampVelSense = 1/5) ∧
    ((initEngine 16).ampVelSense = 1 →
      lerp 1 (1/2) (initEngine 16).ampVelSense = 1/2 ∧
      lerp (1/5) (1/2) (initEngine 16).ampVelSense = 1/2)) :=
  ⟨rfl, c6_velocity_peak (initEngine 16) 60 (1/2) 3 0 rfl⟩

/-- Counterexample to claim C6 as stated: with the drum kit selected and
`ampVelSense = 0`, a `noteOn` at velocity 1 creates a voice whose
amplitude peak is `0.2` (the drum baseline of AudioEngine.ts line 683),
while the claimed formula `lerp(1, velocity, ampVelSense)` gives `1`. -/
theorem c6_counterexample :
    mapGet (noteOn ⟨[], 16, 0, Instr.drumkit⟩ 36 1 7 0).voices (VKey.drum 7 0)
      = some ⟨VoiceKind.drum, 0, 1/5⟩ ∧
    lerp 1 1 0 = 1 ∧ (1/5 : ℚ) ≠ 1 := by
  refine ⟨?_, by norm_num [lerp], by norm_num⟩
  unfold noteOn
  rw [if_neg (by simp)]
  simp only [noteOnDrum]
  norm_num [mapGet_mapSet, lerp]

theorem mkCalls_length (ids : List ℕ) (t0 : ℕ) :
    (mkCalls ids t0).length = ids.length := by
  induction ids generalizing t0 with
  | nil => rfl
  | cons id rest ih => simp [mkCalls, ih]

theorem mkCalls_fst (ids : List ℕ) (t0 : ℕ) :
    (mkCalls ids t0).map Prod.fst = ids := by
  induction ids generalizing t0 with
  | nil => rfl
  | cons id rest ih => simp [mkCalls, ih]

theorem mkCalls_time_ge (ids : List ℕ) (t0 : ℕ) :
    ∀ c ∈ mkCalls ids t0, (t0 : ℚ) ≤ c.2 := by
  induction ids generalizing t0 with
  | nil => simp [mkCalls]
  | cons id rest ih =>
    intro c hc
    rcases List.mem_cons.mp hc with rfl | hc'
    · simp
    · have := ih (t0 + 1) c hc'
      have hcast : (t0 : ℚ) ≤ ((t0 + 1 : ℕ) : ℚ) := by push_cast; linarith
      linarith

theorem mkCalls_append (xs ys : List ℕ) (t0 : ℕ) :
    mkCalls (xs ++ ys) t0 = mkCalls xs t0 ++ mkCalls ys (t0 + xs.length) := by
  induction xs generalizing t0 with
  | nil => simp [mkCalls]
  | cons x rest ih =>
    simp [mkCalls, ih (t0 + 1)]
    ring_nf

theorem mkCalls_take (ids : List ℕ) (t0 k : ℕ) :
    (mkCalls ids t0).take k = mkCalls (ids.take k) t0 := by
  induction ids generalizing t0 k with
  | nil => simp [mkCalls]
  | cons id rest ih =>
    cases k with
    | zero => simp [mkCalls]
    | succ k' => simp [mkCalls, List.take_succ_cons, ih]

theorem runNoteOns_cons (e : Engine) (c : ℕ × ℚ) (cs : List (ℕ × ℚ)) :
    runNoteOns e (c :: cs) = runNoteOns (noteOn e 60 1 c.1 c.2) cs := by
  simp [runNoteOns]

theorem runNoteOns_append (e : Engine) (cs ds : List (ℕ × ℚ)) :
    runNoteOns e (cs ++ ds) = runNoteOns (runNoteOns e cs) ds := by
  simp [runNoteOns, List.foldl_append]

/-- One drum `noteOn` step with a fresh composite key: the retrigger
guard and `enforceVoiceLimit` are both skipped and the voice is
appended. -/
theorem noteOn_drum_step (e : Engine) (noteNumber : ℕ) (velocity : ℚ)
    (id : ℕ) (now : ℚ)
    (hI : e.instrument = Instr.drumkit)
    (hfresh : mapHas e.voices (VKey.drum id now) = false) :
    noteOn e noteNumber velocity id now
      = { e with voices := e.voices ++ [(VKey.drum id now,
          { kind := VoiceKind.drum, startedAt := now,
            ampPeak := lerp (1/5) velocity e.ampVelSense })] } := by
  unfold noteOn
  rw [if_neg (fun hcon => hcon.1 hI)]
  simp only [hI]
  simp [noteOnDrum, mapSet_of_fresh _ _ _ hfresh, hI]

/-- Running a list of drum `noteOn` calls at strictly increasing times
appends one voice per call (no guard, no cap, no stealing). -/
theorem run_fill_drum (ids : List ℕ) (t0 : ℕ) (e : Engine)
    (hI : e.instrument = Instr.drumkit)
    (hT : ∀ kv ∈ e.voices, ∀ j : ℕ, ∀ s : ℚ, kv.1 = VKey.drum j s → s < (t0 : ℚ)) :
    (runNoteOns e (mkCalls ids t0)).voices
      = e.voices ++ (mkCalls ids t0).map
          (fun c => (VKey.drum c.1 c.2,
            { kind := VoiceKind.drum, startedAt := c.2,
              ampPeak := lerp (1/5) 1 e.ampVelSense })) := by
  induction ids generalizing e t0 with
  | nil => simp [mkCalls, runNoteOns]
  | cons id rest ih =>
    have hfresh : mapHas e.voices (VKey.drum id (t0 : ℚ)) = false := by
      rw [mapHas_eq_false_iff]
      intro kv hmem hk
      exact absurd (hT kv hmem id (t0 : ℚ) hk) (lt_irrefl _)
    have hstep := noteOn_drum_step e 60 1 id (t0 : ℚ) hI hfresh
    rw [mkCalls, runNoteOns_cons]
    simp only at hstep
    rw [hstep]
    have hT' : ∀ kv ∈ e.voices ++ [(VKey.drum id (t0 : ℚ),
        { kind := VoiceKind.drum, startedAt := (t0 : ℚ),
          ampPeak := lerp (1/5) 1 e.ampVelSense })],
        ∀ j : ℕ, ∀ s : ℚ, kv.1 = VKey.drum j s → s < ((t0 + 1 : ℕ) : ℚ) := by
      intro kv hmem j s hk
      rcases List.mem_append.mp hmem with hold | hnew
      · have := hT kv hold j s hk
        push_cast
        linarith
      · rcases List.mem_singleton.mp hnew with rfl
        simp at hk
        rcases hk with ⟨rfl, rfl⟩
        push_cast
        linarith
    have := ih (t0 + 1)
      { e with voices := e.voices ++ [(VKey.drum id (t0 : ℚ),
          { kind := VoiceKind.drum, startedAt := (t0 : ℚ),
            ampPeak := lerp (1/5) 1 e.ampVelSense })] } hI hT'
    simp only at this
    rw [this]
    simp [List.append_assoc]

theorem drumEntries_mapDelete_note (vs : List (VKey × Voice)) (id : ℕ) :
    drumEntries (mapDelete vs (VKey.note id)) = drumEntries vs := by
  induction vs with
  | nil => rfl
  | cons kv rest ih =>
    cases hk : kv.1 with
    | drone =>
      simpa [mapDelete, drumEntries, List.filter_cons, hk, VKey.isDrumKey]
        using ih
    | note n =>
      by_cases hn : n = id
      · simpa [mapDelete, drumEntries, List.filter_cons, hk, hn, VKey.isDrumKey]
          using ih
      · simpa [mapDelete, drumEntries, List.filter_cons, hk, hn, VKey.isDrumKey]
          using ih
    | drum j s =>
      simpa [mapDelete, drumEntries, List.filter_cons, hk, VKey.isDrumKey]
        using ih

/-- Claim C10: with a drum kit selected, every `noteOn` (with the
sample cached) unconditionally appends a new voice under the fresh
composite key `id ++ time`, bypassing the retrigger guard and the
polyphony cap: a sequence of `maxVoices + 1` drum `noteOn` calls leaves
`maxVoices + 1` live voices; and `noteOff` called with the original
note-on id never touches a drum voice (the composite key never equals a
plain id key). -/
theorem c10_drum_bypass (e : Engine) (noteNumber : ℕ) (velocity : ℚ)
    (id id2 : ℕ) (now : ℚ) (N : ℕ)
    (hdrum : e.instrument = Instr.drumkit)
    (hfresh : mapHas e.voices (VKey.drum id now) = false) :
    (noteOn e noteNumber velocity id now).voices
        = e.voices ++ [(VKey.drum id now,
            { kind := VoiceKind.drum, startedAt := now,
              ampPeak := lerp (1/5) velocity e.ampVelSense })] ∧
    (noteOn e noteNumber velocity id now).voices.length
        = e.voices.length + 1 ∧
    (runNoteOns (drumEngine N) (mkCalls (List.replicate (N + 1) 0) 0)).voices.length
        = N + 1 ∧
    N < N + 1 ∧
    drumEntries (noteOff e (VKey.note id2)).voices = drumEntries e.voices := by
  have h1 : (noteOn e noteNumber velocity id now).voices
      = e.voices ++ [(VKey.drum id now,
          { kind := VoiceKind.drum, startedAt := now,
            ampPeak := lerp (1/5) velocity e.ampVelSense })] := by
    rw [noteOn_drum_step e noteNumber velocity id now hdrum hfresh]
  have h3 := run_fill_drum (List.replicate (N + 1) 0) 0 (drumEngine N) rfl
    (by intro kv hkv j s hk; simp [drumEngine] at hkv)
  refine ⟨h1, ?_, ?_, Nat.lt_succ_self N, ?_⟩
  · rw [h1]; simp
  · rw [h3]; simp [mkCalls_length, drumEngine]
  · exact drumEntries_mapDelete_note e.voices id2

/-- Witness for C10 at a concrete input: drum kit, cap 1, two calls. -/
theorem c10_drum_bypass_witness :
    (drumEngine 1).instrument = Instr.drumkit ∧
    mapHas (drumEngine 1).voices (VKey.drum 0 0) = false ∧
    ((noteOn (drumEngine 1) 36 1 0 0).voices
        = (drumEngine 1).voices ++ [(VKey.drum 0 0,
            { kind := VoiceKind.drum, startedAt := 0,
              ampPeak := lerp (1/5) 1 (drumEngine 1).ampVelSense })] ∧
    (noteOn (drumEngine 1) 36 1 0 0).voices.length
        = (drumEngine 1).voices.length + 1 ∧
    (runNoteOns (drumEngine 1) (mkCalls (List.replicate (1 + 1) 0) 0)).voices.length
        = 1 + 1 ∧
    1 < 1 + 1 ∧
    drumEntries (noteOff (drumEngine 1) (VKey.note 5)).voices
        = drumEntries (drumEngine 1).voices) :=
  ⟨rfl, rfl, c10_drum_bypass (drumEngine 1) 36 1 0 5 0 1 rfl rfl⟩

theorem findOldestAcc_cons (kv : VKey × Voice) (rest : List (VKey × Voice))
    (acc : Option (VKey × ℚ)) :
    findOldestAcc (kv :: rest) acc = findOldestAcc rest (stealStep acc kv) := rfl

theorem findOldestAcc_keep (vs : List (VKey × Voice)) (k0 : VKey) (t0 : ℚ)
    (h : ∀ kv ∈ vs, ¬ kv.2.startedAt < t0) :
    findOldestAcc vs (some (k0, t0)) = some (k0, t0) := by
  induction vs with
  | nil => rfl
  | cons kv rest ih =>
    have hkv := h kv (List.mem_cons_self _ _)
    have hrest : ∀ kv ∈ rest, ¬ kv.2.startedAt < t0 :=
      fun kv' h' => h kv' (List.mem_cons_of_mem _ h')
    rw [findOldestAcc_cons]
    by_cases hd : kv.1 = VKey.drone
    · rw [show stealStep (some (k0, t0)) kv = some (k0, t0) by
        simp [stealStep, hd]]
      exact ih hrest
    · rw [show stealStep (some (k0, t0)) kv = some (k0, t0) by
        simp [stealStep, hd, hkv]]
      exact ih hrest

theorem findOldest_cons_head (k0 : VKey) (v0 : Voice)
    (rest : List (VKey × Voice)) (hk0 : k0 ≠ VKey.drone)
    (hmin : ∀ kv ∈ rest, ¬ kv.2.startedAt < v0.startedAt) :
    findOldest ((k0, v0) :: rest) = some k0 := by
  unfold findOldest
  rw [findOldestAcc_cons,
    show stealStep none (k0, v0) = some (k0, v0.startedAt) by
      simp [stealStep, hk0],
    findOldestAcc_keep rest k0 v0.startedAt hmin]
  rfl

theorem findOldestAcc_ne_drone (vs : List (VKey × Voice))
    (acc : Option (VKey × ℚ)) (hacc : ∀ t, acc ≠ some (VKey.drone, t)) :
    ∀ t, findOldestAcc vs acc ≠ some (VKey.drone, t) := by
  induction vs generalizing acc with
  | nil => exact hacc
  | cons kv rest ih =>
    rw [findOldestAcc_cons]
    apply ih
    intro t hstep
    by_cases hd : kv.1 = VKey.drone
    · rw [show stealStep acc kv = acc by simp [stealStep, hd]] at hstep
      exact hacc t hstep
    · cases acc with
      | none =>
        rw [show stealStep none kv = some (kv.1, kv.2.startedAt) by
          simp [stealStep, hd]] at hstep
        exact hd (by injection hstep with h1; exact congrArg Prod.fst h1)
      | some best =>
        by_cases hlt : kv.2.startedAt < best.2
        · rw [show stealStep (some best) kv = some (kv.1, kv.2.startedAt) by
            simp [stealStep, hd, hlt]] at hstep
          exact hd (by injection hstep with h1; exact congrArg Prod.fst h1)
        · rw [show stealStep (some best) kv = some best by
            simp [stealStep, hd, hlt]] at hstep
          exact hacc t hstep

theorem findOldest_ne_drone (vs : List (VKey × Voice)) :
    findOldest vs ≠ some VKey.drone := by
  intro h
  unfold findOldest at h
  rcases Option.map_eq_some'.mp h with ⟨⟨k, t⟩, hacc, hfst⟩
  simp at hfst
  subst hfst
  exact findOldestAcc_ne_drone vs none (by simp) t hacc

/-- The voice-map entry appended by a `noteOn` of the fill run
(velocity 1). -/
def fillEntry (p : ℚ) (c : ℕ × ℚ) : VKey × Voice :=
  (VKey.note c.1, { kind := VoiceKind.synth, startedAt := c.2, ampPeak := p })

theorem runNoteOns_instrument (cs : List (ℕ × ℚ)) (e : Engine) :
    (runNoteOns e cs).instrument = e.instrument := by
  induction cs generalizing e with
  | nil => rfl
  | cons c rest ih => rw [runNoteOns_cons, ih, noteOn_instrument]

theorem runNoteOns_maxVoices (cs : List (ℕ × ℚ)) (e : Engine) :
    (runNoteOns e cs).maxVoices = e.maxVoices := by
  induction cs generalizing e with
  | nil => rfl
  | cons c rest ih => rw [runNoteOns_cons, ih, noteOn_maxVoices]

theorem runNoteOns_ampVelSense (cs : List (ℕ × ℚ)) (e : Engine) :
    (runNoteOns e cs).ampVelSense = e.ampVelSense := by
  induction cs generalizing e with
  | nil => rfl
  | cons c rest ih => rw [runNoteOns_cons, ih, noteOn_ampVelSense]

/-- One synth `noteOn` step under the cap with a fresh id: the guard
does not fire, `enforceVoiceLimit` steals nothing, and the voice is
appended. -/
theorem noteOn_synth_step (e : Engine) (noteNumber : ℕ) (velocity : ℚ)
    (id : ℕ) (now : ℚ)
    (hI : e.instrument = Instr.engine)
    (hfresh : mapHas e.voices (VKey.note id) = false)
    (hlen : e.voices.length < e.maxVoices) :
    noteOn e noteNumber velocity id now
      = { e with voices := e.voices ++ [(VKey.note id,
          { kind := VoiceKind.synth, startedAt := now,
            ampPeak := lerp 1 velocity e.ampVelSense })] } := by
  unfold noteOn
  rw [if_neg (fun hcon => by rw [hfresh] at hcon; exact Bool.false_ne_true hcon.2)]
  simp only [hI]
  simp [enforceVoiceLimit, hlen, noteOnSynth, mapSet_of_fresh _ _ _ hfresh, hI]

theorem mkCalls_fst_mem (ids : List ℕ) (t0 : ℕ) (c : ℕ × ℚ)
    (h : c ∈ mkCalls ids t0) : c.1 ∈ ids := by
  rw [← mkCalls_fst ids t0]
  exact List.mem_map_of_mem Prod.fst h

theorem mapHas_fillEntries (ids : List ℕ) (t0 : ℕ) (p : ℚ) (j : ℕ)
    (hj : j ∉ ids) :
    mapHas ((mkCalls ids t0).map (fillEntry p)) (VKey.note j) = false := by
  rw [mapHas_eq_false_iff]
  intro kv hkv
  rcases List.mem_map.mp hkv with ⟨c, hc, rfl⟩
  have : c.1 ∈ ids := mkCalls_fst_mem ids t0 c hc
  simp [fillEntry]
  intro heq
  exact hj (heq ▸ this)

/-- Running the fill: while the cap is not reached and all ids are
fresh and distinct, each `noteOn` appends one synth voice and nothing
is stolen. -/
theorem run_fill (ids : List ℕ) (t0 : ℕ) (e : Engine)
    (hI : e.instrument = Instr.engine)
    (hcap : e.voices.length + ids.length ≤ e.maxVoices)
    (hnd : ids.Nodup)
    (hfr : ∀ id ∈ ids, mapHas e.voices (VKey.note id) = false) :
    (runNoteOns e (mkCalls ids t0)).voices
      = e.voices ++ (mkCalls ids t0).map (fillEntry (lerp 1 1 e.ampVelSense)) := by
  induction ids generalizing e t0 with
  | nil => simp [mkCalls, runNoteOns]
  | cons id rest ih =>
    have hfresh : mapHas e.voices (VKey.note id) = false :=
      hfr id (List.mem_cons_self _ _)
    have hlen : e.voices.length < e.maxVoices := by
      simp only [List.length_cons] at hcap
      omega
    have hstep := noteOn_synth_step e 60 1 id (t0 : ℚ) hI hfresh hlen
    rw [mkCalls, runNoteOns_cons]
    simp only at hstep
    rw [hstep]
    have hndr : rest.Nodup := (List.nodup_cons.mp hnd).2
    have hidr : id ∉ rest := (List.nodup_cons.mp hnd).1
    have hfr' : ∀ id2 ∈ rest,
        mapHas (e.voices ++ [(VKey.note id,
          { kind := VoiceKind.synth, startedAt := (t0 : ℚ),
            ampPeak := lerp 1 1 e.ampVelSense })]) (VKey.note id2) = false := by
      intro id2 hid2
      rw [mapHas_append, hfr id2 (List.mem_cons_of_mem _ hid2)]
      simp [mapHas]
      intro heq
      exact hidr (heq ▸ hid2)
    have hcap' : (e.voices ++ [((VKey.note id,
        { kind := VoiceKind.synth, startedAt := (t0 : ℚ),
          ampPeak := lerp 1 1 e.ampVelSense }) : VKey × Voice)]).length
        + rest.length ≤ e.maxVoices := by
      simp only [List.length_append, List.length_cons, List.length_nil] at hcap ⊢
      omega
    have := ih (t0 + 1)
      { e with voices := e.voices ++ [(VKey.note id,
          { kind := VoiceKind.synth, startedAt := (t0 : ℚ),
            ampPeak := lerp 1 1 e.ampVelSense })] } hI hcap' hndr hfr'
    simp only at this
    rw [this]
    simp [fillEntry, List.append_assoc]

theorem mapDelete_cons_self (k : VKey) (v : Voice)
    (vs : List (VKey × Voice)) :
    mapDelete ((k, v) :: vs) k = mapDelete vs k := by
  simp [mapDelete, List.filter_cons]

theorem mapDelete_not_has (vs : List (VKey × Voice)) (k : VKey)
    (h : mapHas vs k = false) : mapDelete vs k = vs := by
  rw [mapHas_eq_false_iff] at h
  apply List.filter_eq_self.mpr
  intro kv hkv
  simpa using h kv hkv

theorem mapHas_mapDelete_false (vs : List (VKey × Voice)) (k k2 : VKey)
    (h : mapHas vs k = false) : mapHas (mapDelete vs k2) k = false := by
  rw [mapHas_eq_false_iff] at h ⊢
  intro kv hkv
  exact h kv (List.mem_of_mem_filter hkv)

/-- One synth `noteOn` step at or above the cap with a fresh id: the
oldest voice is stolen via `noteOff` and the new voice appended. -/
theorem noteOn_synth_steal (e : Engine) (noteNumber : ℕ) (velocity : ℚ)
    (id : ℕ) (now : ℚ) (kold : VKey)
    (hI : e.instrument = Instr.engine)
    (hfresh : mapHas e.voices (VKey.note id) = false)
    (hlen : ¬ e.voices.length < e.maxVoices)
    (hfind : findOldest e.voices = some kold) :
    noteOn e noteNumber velocity id now
      = { e with voices := mapDelete e.voices kold ++ [(VKey.note id,
          { kind := VoiceKind.synth, startedAt := now,
            ampPeak := lerp 1 velocity e.ampVelSense })] } := by
  have hfresh2 : mapHas (mapDelete e.voices kold) (VKey.note id) = false :=
    mapHas_mapDelete_false _ _ _ hfresh
  unfold noteOn
  rw [if_neg (fun hcon => by rw [hfresh] at hcon; exact Bool.false_ne_true hcon.2)]
  simp only [hI]
  have henf : enforceVoiceLimit e = noteOff e kold := by
    unfold enforceVoiceLimit
    rw [if_neg hlen, hfind]
  simp [henf, noteOnSynth, noteOff, mapSet_of_fresh _ _ _ hfresh2, hI]

theorem mapDelete_fill_cons (p : ℚ) (j : ℕ) (t : ℚ)
    (vs : List (VKey × Voice)) :
    mapDelete (fillEntry p (j, t) :: vs) (VKey.note j)
      = mapDelete vs (VKey.note j) := by
  simp [fillEntry, mapDelete, List.filter_cons]

/-- A `noteOn(noteNumber, velocity, id)` call observed at context time
`time`.  The context clock is monotone, so a call sequence has
non-decreasing times; concurrent calls share a time. -/
structure Call where
  id : ℕ
  note : ℕ
  vel : ℚ
  time : ℚ

/-- Run a sequence of `noteOn` calls. -/
def runCalls (e : Engine) (cs : List Call) : Engine :=
  cs.foldl (fun s c => noteOn s c.note c.vel c.id c.time) e

/-- A fresh engine with polyphony cap `n`, amplitude velocity
sensitivity `s` and the given instrument selected. -/
def freshEngine (n : ℕ) (s : ℚ) (instr : Instr) : Engine :=
  { voices := [], maxVoices := n, ampVelSense := s, instrument := instr }

/-- The voice kind produced by each instrument branch of `noteOn`. -/
def voiceKindOf : Instr → VoiceKind
  | Instr.engine => VoiceKind.synth
  | Instr.sample => VoiceKind.sample
  | Instr.drumkit => VoiceKind.drum

/-- The voice-map entry created by a non-drum `noteOn` call. -/
def callEntry (s : ℚ) (instr : Instr) (c : Call) : VKey × Voice :=
  (VKey.note c.id,
    { kind := voiceKindOf instr, startedAt := c.time,
      ampPeak := lerp 1 c.vel s })

theorem runCalls_cons (e : Engine) (c : Call) (rest : List Call) :
    runCalls e (c :: rest)
      = runCalls (noteOn e c.note c.vel c.id c.time) rest := rfl

theorem runCalls_append (e : Engine) (a b : List Call) :
    runCalls e (a ++ b) = runCalls (runCalls e a) b := by
  simp [runCalls, List.foldl_append]

theorem runCalls_instrument (cs : List Call) (e : Engine) :
    (runCalls e cs).instrument = e.instrument := by
  induction cs generalizing e with
  | nil => rfl
  | cons c rest ih => rw [runCalls_cons, ih, noteOn_instrument]

theorem runCalls_maxVoices (cs : List Call) (e : Engine) :
    (runCalls e cs).maxVoices = e.maxVoices := by
  induction cs generalizing e with
  | nil => rfl
  | cons c rest ih => rw [runCalls_cons, ih, noteOn_maxVoices]

theorem runCalls_ampVelSense (cs : List Call) (e : Engine) :
    (runCalls e cs).ampVelSense = e.ampVelSense := by
  induction cs generalizing e with
  | nil => rfl
  | cons c rest ih => rw [runCalls_cons, ih, noteOn_ampVelSense]

/-- One non-drum `noteOn` step under the cap with a fresh id: the
guard does not fire, `enforceVoiceLimit` steals nothing, and the voice
(synthesized or sampled, per the selected instrument) is appended. -/
theorem noteOn_nondrum_step (e : Engine) (noteNumber : ℕ)
    (velocity : ℚ) (id : ℕ) (now : ℚ)
    (hI : e.instrument ≠ Instr.drumkit)
    (hfresh : mapHas e.voices (VKey.note id) = false)
    (hlen : e.voices.length < e.maxVoices) :
    noteOn e noteNumber velocity id now
      = { e with voices := e.voices ++ [(VKey.note id,
          { kind := voiceKindOf e.instrument, startedAt := now,
            ampPeak := lerp 1 velocity e.ampVelSense })] } := by
  unfold noteOn
  rw [if_neg (fun hcon => by rw [hfresh] at hcon; exact Bool.false_ne_true hcon.2)]
  cases hI2 : e.instrument with
  | engine =>
      simp only [hI2]
      simp [enforceVoiceLimit, hlen, noteOnSynth,
        mapSet_of_fresh _ _ _ hfresh, voiceKindOf, hI2]
  | sample =>
      simp only [hI2]
      simp [enforceVoiceLimit, hlen, noteOnSample,
        mapSet_of_fresh _ _ _ hfresh, voiceKindOf, hI2]
  | drumkit => exact absurd hI2 hI

/-- One non-drum `noteOn` step at or above the cap with a fresh id:
the oldest voice is stolen via `noteOff` and the new voice appended. -/
theorem noteOn_nondrum_steal (e : Engine) (noteNumber : ℕ)
    (velocity : ℚ) (id : ℕ) (now : ℚ) (kold : VKey)
    (hI : e.instrument ≠ Instr.drumkit)
    (hfresh : mapHas e.voices (VKey.note id) = false)
    (hlen : ¬ e.voices.length < e.maxVoices)
    (hfind : findOldest e.voices = some kold) :
    noteOn e noteNumber velocity id now
      = { e with voices := mapDelete e.voices kold ++ [(VKey.note id,
          { kind := voiceKindOf e.instrument, startedAt := now,
            ampPeak := lerp 1 velocity e.ampVelSense })] } := by
  have hfresh2 : mapHas (mapDelete e.voices kold) (VKey.note id) = false :=
    mapHas_mapDelete_false _ _ _ hfresh
  have henf : enforceVoiceLimit e = noteOff e kold := by
    unfold enforceVoiceLimit
    rw [if_neg hlen, hfind]
  unfold noteOn
  rw [if_neg (fun hcon => by rw [hfresh] at hcon; exact Bool.false_ne_true hcon.2)]
  cases hI2 : e.instrument with
  | engine =>
      simp only [hI2]
      simp [henf, noteOnSynth, noteOff, mapSet_of_fresh _ _ _ hfresh2,
        voiceKindOf, hI2]
  | sample =>
      simp only [hI2]
      simp [henf, noteOnSample, noteOff, mapSet_of_fresh _ _ _ hfresh2,
        voiceKindOf, hI2]
  | drumkit => exact absurd hI2 hI

theorem mapHas_callEntries (cs : List Call) (s : ℚ) (instr : Instr)
    (j : ℕ) (hj : j ∉ cs.map Call.id) :
    mapHas (cs.map (callEntry s instr)) (VKey.note j) = false := by
  rw [mapHas_eq_false_iff]
  intro kv hkv
  rcases List.mem_map.mp hkv with ⟨c, hc, rfl⟩
  simp [callEntry]
  intro heq
  exact hj (heq ▸ List.mem_map_of_mem Call.id hc)

/-- Running the fill on any non-drum instrument: while the cap is not
reached and all ids are fresh and distinct, each `noteOn` appends one
voice and nothing is stolen. -/
theorem run_fill_calls (cs : List Call) (e : Engine)
    (hI : e.instrument ≠ Instr.drumkit)
    (hcap : e.voices.length + cs.length ≤ e.maxVoices)
    (hnd : (cs.map Call.id).Nodup)
    (hfr : ∀ c ∈ cs, mapHas e.voices (VKey.note c.id) = false) :
    (runCalls e cs).voices
      = e.voices ++ cs.map (callEntry e.ampVelSense e.instrument) := by
  induction cs generalizing e with
  | nil => simp [runCalls]
  | cons c rest ih =>
    have hfresh : mapHas e.voices (VKey.note c.id) = false :=
      hfr c (List.mem_cons_self _ _)
    have hlen : e.voices.length < e.maxVoices := by
      simp only [List.length_cons] at hcap
      omega
    have hstep := noteOn_nondrum_step e c.note c.vel c.id c.time hI hfresh hlen
    rw [runCalls_cons]
    simp only at hstep
    rw [hstep]
    have hndr : (rest.map Call.id).Nodup := by
      simp only [List.map_cons] at hnd
      exact (List.nodup_cons.mp hnd).2
    have hidr : c.id ∉ rest.map Call.id := by
      simp only [List.map_cons] at hnd
      exact (List.nodup_cons.mp hnd).1
    have hfr2 : ∀ c2 ∈ rest,
        mapHas (e.voices ++ [(VKey.note c.id,
          { kind := voiceKindOf e.instrument, startedAt := c.time,
            ampPeak := lerp 1 c.vel e.ampVelSense })])
          (VKey.note c2.id) = false := by
      intro c2 hc2
      rw [mapHas_append, hfr c2 (List.mem_cons_of_mem _ hc2)]
      simp [mapHas]
      intro heq
      exact hidr (heq ▸ List.mem_map_of_mem Call.id hc2)
    have hcap2 : (e.voices ++ [((VKey.note c.id,
        { kind := voiceKindOf e.instrument, startedAt := c.time,
          ampPeak := lerp 1 c.vel e.ampVelSense }) : VKey × Voice)]).length
        + rest.length ≤ e.maxVoices := by
      simp only [List.length_append, List.length_cons, List.length_nil]
        at hcap ⊢
      omega
    have := ih
      { e with voices := e.voices ++ [(VKey.note c.id,
          { kind := voiceKindOf e.instrument, startedAt := c.time,
            ampPeak := lerp 1 c.vel e.ampVelSense })] } hI hcap2 hndr hfr2
    simp only at this
    rw [this]
    simp [callEntry, List.append_assoc]

/-- Claim C1: with `maxVoices = N`, any non-drum instrument and any
amplitude sensitivity, a sequence of `N + 1` `noteOn` calls with
distinct ids, arbitrary notes and velocities, and non-decreasing
context times (concurrent equal-time calls allowed) from a fresh
engine keeps the live voice count at or below `N` after every prefix;
the final state holds exactly the last `N` ids, the steal scan before
the final call selects the first (earliest-started) call's voice, and
the scan never selects the `"drone"` key on any map. -/
theorem c1_voice_limit_steal (N : ℕ) (hN : 1 ≤ N) (s : ℚ)
    (instr : Instr) (hI : instr ≠ Instr.drumkit) (cs : List Call)
    (hlen : cs.length = N + 1) (hnd : (cs.map Call.id).Nodup)
    (htime : cs.Pairwise (fun a b => a.time ≤ b.time))
    (k : ℕ) (hk : k ≤ N + 1) (vs : List (VKey × Voice)) :
    (runCalls (freshEngine N s instr) (cs.take k)).voices.length ≤ N ∧
    (runCalls (freshEngine N s instr) cs).voices.map Prod.fst
        = (cs.drop 1).map (fun c => VKey.note c.id) ∧
    findOldest (runCalls (freshEngine N s instr) cs.dropLast).voices
        = cs.head?.map (fun c => VKey.note c.id) ∧
    findOldest vs ≠ some VKey.drone := by
  have hne : cs ≠ [] := by
    intro h
    rw [h] at hlen
    simp at hlen
  have hfrontlen : cs.dropLast.length = N := by
    rw [List.length_dropLast, hlen]
    omega
  obtain ⟨c0, ctail, hfront⟩ : ∃ c0 ctail, cs.dropLast = c0 :: ctail := by
    cases hdl : cs.dropLast with
    | nil => rw [hdl] at hfrontlen; simp at hfrontlen; omega
    | cons a b => exact ⟨a, b, rfl⟩
  have hsplit : cs = cs.dropLast ++ [cs.getLast hne] :=
    (List.dropLast_append_getLast hne).symm
  have hnd2 : (cs.dropLast.map Call.id ++ [(cs.getLast hne).id]).Nodup := by
    have h0 : ((cs.dropLast ++ [cs.getLast hne]).map Call.id).Nodup := by
      rw [← hsplit]
      exact hnd
    simpa using h0
  have hfrontnd : (cs.dropLast.map Call.id).Nodup :=
    (List.nodup_append.mp hnd2).1
  have hla_not : (cs.getLast hne).id ∉ cs.dropLast.map Call.id := by
    intro hmem
    exact (List.nodup_append.mp hnd2).2.2 hmem (List.mem_singleton_self _)
  have hcapA : (freshEngine N s instr).voices.length + cs.dropLast.length
      ≤ (freshEngine N s instr).maxVoices := by
    simp [freshEngine, hfrontlen]
  -- the first N calls fill the map with no stealing
  have hA : (runCalls (freshEngine N s instr) cs.dropLast).voices
      = cs.dropLast.map (callEntry s instr) := by
    have := run_fill_calls cs.dropLast (freshEngine N s instr) hI hcapA
      hfrontnd (fun c _ => rfl)
    simpa [freshEngine] using this
  have hAinstr2 : (runCalls (freshEngine N s instr) cs.dropLast).instrument
      ≠ Instr.drumkit := by
    rw [runCalls_instrument]
    exact hI
  have hAmax : (runCalls (freshEngine N s instr) cs.dropLast).maxVoices
      = N := by rw [runCalls_maxVoices]; rfl
  have hAlen : (runCalls (freshEngine N s instr) cs.dropLast).voices.length
      = N := by
    rw [hA]
    simp
    omega
  have hAvoices : (runCalls (freshEngine N s instr) cs.dropLast).voices
      = (VKey.note c0.id,
          { kind := voiceKindOf instr, startedAt := c0.time,
            ampPeak := lerp 1 c0.vel s })
        :: ctail.map (callEntry s instr) := by
    rw [hA, hfront]
    rfl
  have hc0_not : c0.id ∉ ctail.map Call.id := by
    have h0 : ((c0 :: ctail).map Call.id).Nodup := by
      rw [← hfront]
      exact hfrontnd
    simp only [List.map_cons] at h0
    exact (List.nodup_cons.mp h0).1
  have hAfresh : mapHas
      (runCalls (freshEngine N s instr) cs.dropLast).voices
      (VKey.note (cs.getLast hne).id) = false := by
    rw [hA]
    exact mapHas_callEntries _ _ _ _ hla_not
  have hAfull : ¬ (runCalls
        (freshEngine N s instr) cs.dropLast).voices.length
      < (runCalls (freshEngine N s instr) cs.dropLast).maxVoices := by
    rw [hAlen, hAmax]
    omega
  have hPfront : (c0 :: ctail).Pairwise (fun a b => a.time ≤ b.time) := by
    rw [← hfront]
    exact htime.sublist (List.dropLast_sublist cs)
  -- the first call has the minimal start time, so the scan selects it
  have hsteal : findOldest
      (runCalls (freshEngine N s instr) cs.dropLast).voices
      = some (VKey.note c0.id) := by
    rw [hAvoices]
    apply findOldest_cons_head
    · simp
    · intro kv hkv
      rcases List.mem_map.mp hkv with ⟨c2, hc2, rfl⟩
      have hle : c0.time ≤ c2.time := (List.pairwise_cons.mp hPfront).1 c2 hc2
      show ¬ c2.time < c0.time
      exact not_lt.mpr hle
  have hhead : cs.head? = some c0 := by
    conv_lhs => rw [hsplit, hfront]
    rfl
  have hscan : findOldest
      (runCalls (freshEngine N s instr) cs.dropLast).voices
      = cs.head?.map (fun c => VKey.note c.id) := by
    rw [hsteal, hhead]
    rfl
  -- the final call steals the first voice and appends the last id
  have hrun : runCalls (freshEngine N s instr) cs
      = noteOn (runCalls (freshEngine N s instr) cs.dropLast)
          (cs.getLast hne).note (cs.getLast hne).vel
          (cs.getLast hne).id (cs.getLast hne).time := by
    conv_lhs => rw [hsplit]
    rw [runCalls_append]
    rfl
  have hfreshtail : mapHas (ctail.map (callEntry s instr))
      (VKey.note c0.id) = false :=
    mapHas_callEntries _ _ _ _ hc0_not
  have hdel : mapDelete
      (runCalls (freshEngine N s instr) cs.dropLast).voices
      (VKey.note c0.id) = ctail.map (callEntry s instr) := by
    rw [hAvoices, mapDelete_cons_self]
    exact mapDelete_not_has _ _ hfreshtail
  have hfinal := noteOn_nondrum_steal
    (runCalls (freshEngine N s instr) cs.dropLast)
    (cs.getLast hne).note (cs.getLast hne).vel
    (cs.getLast hne).id (cs.getLast hne).time (VKey.note c0.id)
    hAinstr2 hAfresh hAfull hsteal
  have hdrop : cs.drop 1 = ctail ++ [cs.getLast hne] := by
    conv_lhs => rw [hsplit, hfront]
    rfl
  have hkeys : (runCalls (freshEngine N s instr) cs).voices.map Prod.fst
      = (cs.drop 1).map (fun c => VKey.note c.id) := by
    rw [hrun, hfinal]
    simp only [List.map_append, hdel]
    rw [hdrop]
    simp only [List.map_append, List.map_map]
    have h2 : (Prod.fst ∘ callEntry s instr)
        = (fun c => VKey.note c.id) := by
      funext c
      rfl
    rw [h2]
    simp
  refine ⟨?_, hkeys, hscan, findOldest_ne_drone vs⟩
  by_cases hkN : k ≤ N
  · have hndk : ((cs.take k).map Call.id).Nodup := by
      rw [List.map_take]
      exact (List.take_sublist k _).nodup hnd
    have hcap2 : (freshEngine N s instr).voices.length + (cs.take k).length
        ≤ (freshEngine N s instr).maxVoices := by
      simp only [freshEngine, List.length_nil, List.length_take]
      omega
    have hfill := run_fill_calls (cs.take k) (freshEngine N s instr) hI
      hcap2 hndk (fun c _ => rfl)
    rw [hfill]
    simp only [freshEngine, List.nil_append, List.length_map,
      List.length_take]
    omega
  · have htake : cs.take k = cs := by
      apply List.take_of_length_le
      omega
    rw [htake]
    have hlen2 : (runCalls (freshEngine N s instr) cs).voices.length
        = ((cs.drop 1).map (fun c => VKey.note c.id)).length := by
      rw [← hkeys, List.length_map]
    rw [hlen2]
    simp [hlen]

/-- Witness for C1 at a concrete input: cap 1 on the SAMPLED non-drum
instrument, two concurrent calls (equal times) with distinct ids and
different notes and velocities, full prefix, and a concrete map for
the drone conjunct. -/
theorem c1_voice_limit_steal_witness :
    (1 ≤ 1) ∧ (Instr.sample ≠ Instr.drumkit) ∧
    ([⟨0, 60, 1/2, 0⟩, ⟨1, 64, 1, 0⟩] : List Call).length = 1 + 1 ∧
    (([⟨0, 60, 1/2, 0⟩, ⟨1, 64, 1, 0⟩] : List Call).map Call.id).Nodup ∧
    ([⟨0, 60, 1/2, 0⟩, ⟨1, 64, 1, 0⟩] : List Call).Pairwise
      (fun a b => a.time ≤ b.time) ∧
    (2 ≤ 1 + 1) ∧
    ((runCalls (freshEngine 1 1 Instr.sample)
        (([⟨0, 60, 1/2, 0⟩, ⟨1, 64, 1, 0⟩] : List Call).take 2)).voices.length
        ≤ 1 ∧
      (runCalls (freshEngine 1 1 Instr.sample)
          ([⟨0, 60, 1/2, 0⟩, ⟨1, 64, 1, 0⟩] : List Call)).voices.map Prod.fst
        = (([⟨0, 60, 1/2, 0⟩, ⟨1, 64, 1, 0⟩] : List Call).drop 1).map
            (fun c => VKey.note c.id) ∧
      findOldest (runCalls (freshEngine 1 1 Instr.sample)
          ([⟨0, 60, 1/2, 0⟩, ⟨1, 64, 1, 0⟩] : List Call).dropLast).voices
        = (([⟨0, 60, 1/2, 0⟩, ⟨1, 64, 1, 0⟩] : List Call).head?).map
            (fun c => VKey.note c.id) ∧
      findOldest [(VKey.note 3,
          { kind := VoiceKind.synth, startedAt := 0, ampPeak := 1 })]
        ≠ some VKey.drone) :=
  ⟨le_rfl, by decide, rfl, by decide,
    by simp [List.pairwise_cons], le_rfl,
    c1_voice_limit_steal 1 le_rfl 1 Instr.sample (by decide)
      [⟨0, 60, 1/2, 0⟩, ⟨1, 64, 1, 0⟩] rfl (by decide)
      (by simp [List.pairwise_cons]) 2 le_rfl
      [(VKey.note 3, { kind := VoiceKind.synth, startedAt := 0, ampPeak := 1 })]⟩

/-- A JS `DataView` over the WAV `ArrayBuffer`, as a byte store
(indices outside the buffer are irrelevant; the buffer is zero-filled
on allocation). -/
def DV : Type := ℕ → ℕ

/-- Write one byte at an offset. -/
def dvSet (v : DV) (o b : ℕ) : DV := fun n => if n = o then b else v n

/-- `view.setUint16(o, x, true)`: little-endian 16-bit write. -/
def setUint16le (v : DV) (o x : ℕ) : DV :=
  dvSet (dvSet v o (x % 256)) (o + 1) (x / 256 % 256)

/-- `view.setUint32(o, x, true)`: little-endian 32-bit write. -/
def setUint32le (v : DV) (o x : ℕ) : DV :=
  dvSet (dvSet (dvSet (dvSet v o (x % 256)) (o + 1) (x / 256 % 256))
    (o + 2) (x / 65536 % 256)) (o + 3) (x / 16777216 % 256)

/-- Two's-complement conversion of a signed 16-bit value to its
unsigned bit pattern, as performed by `view.setInt16`. -/
def toUint16 (x : ℤ) : ℕ := (x % 65536).toNat

/-- `view.setInt16(o, x, true)`. -/
def setInt16le (v : DV) (o : ℕ) (x : ℤ) : DV := setUint16le v o (toUint16 x)

/-- `writeString` (AudioEngine.ts lines 887-889): write the character
codes byte by byte. -/
def writeString (v : DV) (o : ℕ) : List ℕ → DV
  | [] => v
  | c :: cs => writeString (dvSet v o c) (o + 1) cs

/-- JS truncation toward zero (the `ToInt16` conversion applied by
`setInt16` to an in-range float). -/
def jsTrunc (q : ℚ) : ℤ := if 0 ≤ q then ⌊q⌋ else -⌊-q⌋

/-- The per-sample scaling of `encodeWav` (AudioEngine.ts lines
879-881): clamp to `[-1, 1]`, then `s < 0 ? s * 0x8000 : s * 0x7fff`,
truncated to a signed 16-bit integer by `setInt16`. -/
def encInt16 (s : ℚ) : ℤ :=
  let c := clamp1 s
  if c < 0 then jsTrunc (c * 32768) else jsTrunc (c * 32767)

/-- The sample-writing loop of `encodeWav` (AudioEngine.ts lines
876-882), starting at byte offset `o`. -/
def writeSamples (v : DV) (o : ℕ) : List ℚ → DV
  | [] => v
  | s :: ss => writeSamples (setInt16le v o (encInt16 s)) (o + 2) ss

/-- The 44-byte header writes of `encodeWav` (AudioEngine.ts lines
858-873) on the zero-filled buffer, with the sample rate and the data
size in bytes as inputs. -/
def headerView (sampleRate dataSize : ℕ) : DV :=
  let v0 : DV := fun _ => 0
  let v1 := writeString v0 0 [82, 73, 70, 70]
  let v2 := setUint32le v1 4 (36 + dataSize)
  let v3 := writeString v2 8 [87, 65, 86, 69]
  let v4 := writeString v3 12 [102, 109, 116, 32]
  let v5 := setUint32le v4 16 16
  let v6 := setUint16le v5 20 1
  let v7 := setUint16le v6 22 1
  let v8 := setUint32le v7 24 sampleRate
  let v9 := setUint32le v8 28 (sampleRate * (1 * 2))
  let v10 := setUint16le v9 32 (1 * 2)
  let v11 := setUint16le v10 34 16
  let v12 := writeString v11 36 [100, 97, 116, 97]
  setUint32le v12 40 dataSize

/-- Read `n` bytes starting at offset `o`. -/
def readBytes (v : DV) (o n : ℕ) : List ℕ :=
  (List.range n).map fun i => v (o + i)

/-- `encodeWav` (AudioEngine.ts lines 848-885): allocate
`44 + 2 * samples.length` bytes, write the RIFF/WAVE header, then the
16-bit PCM samples, and return the bytes.  `numChannels = 1` and
`bytesPerSample = 2` are inlined as in the source (`blockAlign = 1 * 2`,
`byteRate = sampleRate * blockAlign`, `dataSize = length * 2`). -/
def encodeWav (samples : List ℚ) (sampleRate : ℕ) : List ℕ :=
  let dataSize := samples.length * 2
  let v := writeSamples (headerView sampleRate dataSize) 44 samples
  readBytes v 0 (44 + dataSize)

/-- Little-endian byte pair of a 16-bit value (declarative layout). -/
def u16le (x : ℕ) : List ℕ := [x % 256, x / 256 % 256]

/-- Little-endian byte quadruple of a 32-bit value (declarative
layout). -/
def u32le (x : ℕ) : List ℕ :=
  [x % 256, x / 256 % 256, x / 65536 % 256, x / 16777216 % 256]

/-- Little-endian bytes of a signed 16-bit sample. -/
def i16leBytes (x : ℤ) : List ℕ := u16le (toUint16 x)

/-- The RIFF/WAVE header laid out byte by byte, from the spec (§6):
`RIFF`, chunk size `36 + dataSize`, `WAVE`, `fmt ` subchunk of size 16
declaring PCM format 1, mono, the sample rate, byte rate
`sampleRate * 2`, block align 2, 16 bits per sample, then `data` with
`dataSize`. -/
def wavHeader (sampleRate dataSize : ℕ) : List ℕ :=
  [82, 73, 70, 70] ++ u32le (36 + dataSize) ++ [87, 65, 86, 69]
    ++ [102, 109, 116, 32] ++ u32le 16 ++ u16le 1 ++ u16le 1
    ++ u32le sampleRate ++ u32le (sampleRate * 2) ++ u16le 2 ++ u16le 16
    ++ [100, 97, 116, 97] ++ u32le dataSize

/-- The PCM payload: each sample clamped, scaled and written as a
little-endian signed 16-bit value. -/
def pcmData (samples : List ℚ) : List ℕ :=
  samples.foldr (fun s acc => i16leBytes (encInt16 s) ++ acc) []

/-- The declarative WAV layout from the spec: 44 header bytes followed
by the PCM data. -/
def wavBytes (samples : List ℚ) (sampleRate : ℕ) : List ℕ :=
  wavHeader sampleRate (samples.length * 2) ++ pcmData samples

theorem readBytes_split (v : DV) (o a b : ℕ) :
    readBytes v o (a + b) = readBytes v o a ++ readBytes v (o + a) b := by
  unfold readBytes
  rw [List.range_add a b, List.map_append, List.map_map]
  congr 1
  apply List.map_congr_left
  intro i _
  simp [Function.comp]
  ring_nf

theorem writeSamples_preserve (ss : List ℚ) (v : DV) (o n : ℕ)
    (h : n < o) : writeSamples v o ss n = v n := by
  induction ss generalizing v o with
  | nil => rfl
  | cons s rest ih =>
    rw [writeSamples]
    rw [ih (setInt16le v o (encInt16 s)) (o + 2) (by omega)]
    have h1 : n ≠ o + 1 := by omega
    have h2 : n ≠ o := by omega
    simp [setInt16le, setUint16le, dvSet, h1, h2]

theorem readBytes_setInt16 (v : DV) (o : ℕ) (x : ℤ) :
    readBytes (setInt16le v o x) o 2 = i16leBytes x := by
  simp [readBytes, List.range_succ, setInt16le, setUint16le, dvSet,
    i16leBytes, u16le]

theorem writeSamples_read (ss : List ℚ) (v : DV) (o : ℕ) :
    readBytes (writeSamples v o ss) o (ss.length * 2) = pcmData ss := by
  induction ss generalizing v o with
  | nil => simp [readBytes, pcmData]
  | cons s rest ih =>
    rw [show (s :: rest).length * 2 = 2 + rest.length * 2 by
      simp [List.length_cons]; ring]
    rw [readBytes_split]
    rw [writeSamples]
    have hhead : readBytes (writeSamples (setInt16le v o (encInt16 s))
        (o + 2) rest) o 2 = i16leBytes (encInt16 s) := by
      rw [← readBytes_setInt16 v o (encInt16 s)]
      unfold readBytes
      apply List.map_congr_left
      intro i hi
      simp at hi
      exact writeSamples_preserve rest _ (o + 2) (o + i) (by omega)
    rw [hhead, ih]
    rfl

theorem headerView_read (sampleRate dataSize : ℕ) :
    readBytes (headerView sampleRate dataSize) 0 44
      = wavHeader sampleRate dataSize := by
  rfl

theorem pcmData_length (ss : List ℚ) : (pcmData ss).length = ss.length * 2 := by
  induction ss with
  | nil => rfl
  | cons s rest ih =>
    show (i16leBytes (encInt16 s) ++ pcmData rest).length = (s :: rest).length * 2
    rw [List.length_append, ih]
    simp [i16leBytes, u16le]
    ring

theorem encodeWav_eq_wavBytes (samples : List ℚ) (sampleRate : ℕ) :
    encodeWav samples sampleRate = wavBytes samples sampleRate := by
  unfold encodeWav wavBytes
  rw [readBytes_split _ 0 44 (samples.length * 2)]
  congr 1
  · have hpres : readBytes
        (writeSamples (headerView sampleRate (samples.length * 2)) 44 samples)
        0 44
        = readBytes (headerView sampleRate (samples.length * 2)) 0 44 := by
      unfold readBytes
      apply List.map_congr_left
      intro i hi
      simp at hi
      exact writeSamples_preserve samples _ 44 (0 + i) (by omega)
    rw [hpres, headerView_read]
  · rw [show (0 : ℕ) + 44 = 44 by omega, writeSamples_read]

theorem wavBytes_length (samples : List ℚ) (sampleRate : ℕ) :
    (wavBytes samples sampleRate).length = 44 + samples.length * 2 := by
  unfold wavBytes
  rw [List.length_append, pcmData_length]
  rfl

/-- Claim C7: `encodeWav` produces exactly the declarative RIFF/WAVE
layout: 44 header bytes (`RIFF`, chunk size `36 + dataSize`, `WAVE`,
`fmt ` of size 16 declaring PCM format 1, mono, the sample rate, byte
rate `sampleRate * 2`, block align 2, 16 bits per sample, `data`,
`dataSize = 2 * sampleCount`), followed by the little-endian signed
16-bit samples obtained by clamping to `[-1, 1]` and scaling via
`s < 0 ? s * 32768 : s * 32767`. -/
theorem c7_encodeWav_layout (samples : List ℚ) (sampleRate : ℕ) :
    encodeWav samples sampleRate = wavBytes samples sampleRate ∧
    (wavHeader sampleRate (samples.length * 2)).length = 44 ∧
    (encodeWav samples sampleRate).length = 44 + samples.length * 2 := by
  refine ⟨encodeWav_eq_wavBytes samples sampleRate, rfl, ?_⟩
  rw [encodeWav_eq_wavBytes samples sampleRate, wavBytes_length]

/-- Little-endian 16-bit read of the RIFF/WAVE layout (refinement side
of claim C8: the parser follows the spec's byte layout in §6, there is
no decoder in the source). -/
def readU16le (bs : List ℕ) (o : ℕ) : ℕ :=
  bs.getD o 0 + 256 * bs.getD (o + 1) 0

/-- Little-endian 32-bit read. -/
def readU32le (bs : List ℕ) (o : ℕ) : ℕ :=
  bs.getD o 0 + 256 * bs.getD (o + 1) 0 + 65536 * bs.getD (o + 2) 0
    + 16777216 * bs.getD (o + 3) 0

/-- Reinterpret an unsigned 16-bit pattern as a signed 16-bit value. -/
def toInt16 (x : ℕ) : ℤ := if x < 32768 then (x : ℤ) else (x : ℤ) - 65536

/-- Parse a byte list according to the RIFF/WAVE layout of §6: check
the `RIFF`/`WAVE`/`fmt `/`data` tags, PCM format 1, 16 bits per sample
and the declared data size, then return the sample rate, the channel
count and the decoded signed 16-bit samples. -/
def parseWav (bs : List ℕ) : Option (ℕ × ℕ × List ℤ) :=
  if bs.take 4 = [82, 73, 70, 70] ∧ (bs.drop 8).take 4 = [87, 65, 86, 69] ∧
      (bs.drop 12).take 4 = [102, 109, 116, 32] ∧ readU32le bs 16 = 16 ∧
      readU16le bs 20 = 1 ∧ readU16le bs 34 = 16 ∧
      (bs.drop 36).take 4 = [100, 97, 116, 97] ∧
      bs.length = 44 + readU32le bs 40 then
    some (readU32le bs 24, readU16le bs 22,
      (List.range (readU32le bs 40 / 2)).map fun i =>
        toInt16 (readU16le bs (44 + 2 * i)))
  else none

theorem u32_decode (x : ℕ) (h : x < 4294967296) :
    x % 256 + 256 * (x / 256 % 256) + 65536 * (x / 65536 % 256)
      + 16777216 * (x / 16777216 % 256) = x := by
  omega

theorem u16_decode (x : ℕ) (h : x < 65536) :
    x % 256 + 256 * (x / 256 % 256) = x := by
  omega

theorem toUint16_lt (e : ℤ) : toUint16 e < 65536 := by
  unfold toUint16
  omega

theorem toInt16_toUint16 (e : ℤ) (h1 : -32768 ≤ e) (h2 : e ≤ 32767) :
    toInt16 (toUint16 e) = e := by
  unfold toInt16 toUint16
  omega

theorem clamp1_mem (s : ℚ) : -1 ≤ clamp1 s ∧ clamp1 s ≤ 1 := by
  unfold clamp1
  constructor
  · exact le_max_left _ _
  · exact max_le (by norm_num) (min_le_left _ _)

theorem encInt16_bounds (s : ℚ) :
    -32768 ≤ encInt16 s ∧ encInt16 s ≤ 32767 := by
  obtain ⟨hc1, hc2⟩ := clamp1_mem s
  unfold encInt16 jsTrunc
  by_cases hneg : clamp1 s < 0
  · rw [if_pos hneg,
      if_neg (not_le.mpr (by nlinarith : clamp1 s * 32768 < 0))]
    constructor
    · have hfl : (⌊-(clamp1 s * 32768)⌋ : ℚ) ≤ -(clamp1 s * 32768) :=
        Int.floor_le _
      have hle : (⌊-(clamp1 s * 32768)⌋ : ℚ) ≤ 32768 := by nlinarith
      have : (⌊-(clamp1 s * 32768)⌋ : ℤ) ≤ 32768 := by exact_mod_cast hle
      omega
    · have : (0 : ℤ) ≤ ⌊-(clamp1 s * 32768)⌋ := by
        apply Int.floor_nonneg.mpr
        nlinarith
      omega
  · push_neg at hneg
    rw [if_neg (not_lt.mpr hneg),
      if_pos (by nlinarith : (0 : ℚ) ≤ clamp1 s * 32767)]
    constructor
    · have : (0 : ℤ) ≤ ⌊clamp1 s * 32767⌋ := by
        apply Int.floor_nonneg.mpr
        nlinarith
      omega
    · have hfl : (⌊clamp1 s * 32767⌋ : ℚ) ≤ clamp1 s * 32767 :=
        Int.floor_le _
      have hle : (⌊clamp1 s * 32767⌋ : ℚ) ≤ 32767 := by nlinarith
      exact_mod_cast hle

theorem pcmData_cons (s : ℚ) (rest : List ℚ) :
    pcmData (s :: rest) = i16leBytes (encInt16 s) ++ pcmData rest := rfl

theorem pcmData_getD (ss : List ℚ) (i : ℕ) (h : i < ss.length) :
    (pcmData ss).getD (2 * i) 0 = toUint16 (encInt16 (ss.getD i 0)) % 256 ∧
    (pcmData ss).getD (2 * i + 1) 0
      = toUint16 (encInt16 (ss.getD i 0)) / 256 % 256 := by
  induction ss generalizing i with
  | nil => simp at h
  | cons s rest ih =>
    cases i with
    | zero =>
      constructor <;> simp [pcmData_cons, i16leBytes, u16le]
    | succ j =>
      have hj : j < rest.length := by simpa using h
      have := ih j hj
      have h2 : 2 * (j + 1) = 2 * j + 1 + 1 := by ring
      rw [h2]
      simpa [pcmData_cons, i16leBytes, u16le, List.getD_cons_succ]
        using this

theorem wavHeader_explicit (r ds : ℕ) : wavHeader r ds =
    [82, 73, 70, 70,
     (36 + ds) % 256, (36 + ds) / 256 % 256, (36 + ds) / 65536 % 256,
     (36 + ds) / 16777216 % 256,
     87, 65, 86, 69, 102, 109, 116, 32, 16, 0, 0, 0, 1, 0, 1, 0,
     r % 256, r / 256 % 256, r / 65536 % 256, r / 16777216 % 256,
     r * 2 % 256, r * 2 / 256 % 256, r * 2 / 65536 % 256,
     r * 2 / 16777216 % 256,
     2, 0, 16, 0, 100, 97, 116, 97,
     ds % 256, ds / 256 % 256, ds / 65536 % 256, ds / 16777216 % 256] := by
  norm_num [wavHeader, u32le, u16le]

theorem wavHeader_length (r ds : ℕ) : (wavHeader r ds).length = 44 := rfl

theorem wavBytes_getD_header (samples : List ℚ) (r n : ℕ) (hn : n < 44) :
    (wavBytes samples r).getD n 0
      = (wavHeader r (samples.length * 2)).getD n 0 := by
  unfold wavBytes
  have hle : n < (wavHeader r (samples.length * 2)).length := by
    rw [wavHeader_length]
    exact hn
  exact List.getD_append _ _ _ _ hle

theorem wavBytes_read40 (samples : List ℚ) (r : ℕ)
    (hm : samples.length * 2 < 4294967296) :
    readU32le (wavBytes samples r) 40 = samples.length * 2 := by
  unfold readU32le
  rw [wavBytes_getD_header samples r 40 (by omega),
    wavBytes_getD_header samples r (40 + 1) (by omega),
    wavBytes_getD_header samples r (40 + 2) (by omega),
    wavBytes_getD_header samples r (40 + 3) (by omega),
    wavHeader_explicit]
  show samples.length * 2 % 256
      + 256 * (samples.length * 2 / 256 % 256)
      + 65536 * (samples.length * 2 / 65536 % 256)
      + 16777216 * (samples.length * 2 / 16777216 % 256)
      = samples.length * 2
  exact u32_decode _ hm

theorem wavBytes_read24 (samples : List ℚ) (r : ℕ) (hr : r < 4294967296) :
    readU32le (wavBytes samples r) 24 = r := by
  unfold readU32le
  rw [wavBytes_getD_header samples r 24 (by omega),
    wavBytes_getD_header samples r (24 + 1) (by omega),
    wavBytes_getD_header samples r (24 + 2) (by omega),
    wavBytes_getD_header samples r (24 + 3) (by omega),
    wavHeader_explicit]
  show r % 256 + 256 * (r / 256 % 256) + 65536 * (r / 65536 % 256)
      + 16777216 * (r / 16777216 % 256) = r
  exact u32_decode _ hr

theorem wavBytes_read16 (samples : List ℚ) (r : ℕ) :
    readU32le (wavBytes samples r) 16 = 16 := by
  unfold readU32le
  rw [wavBytes_getD_header samples r 16 (by omega),
    wavBytes_getD_header samples r (16 + 1) (by omega),
    wavBytes_getD_header samples r (16 + 2) (by omega),
    wavBytes_getD_header samples r (16 + 3) (by omega),
    wavHeader_explicit]
  rfl

theorem wavBytes_read20 (samples : List ℚ) (r : ℕ) :
    readU16le (wavBytes samples r) 20 = 1 := by
  unfold readU16le
  rw [wavBytes_getD_header samples r 20 (by omega),
    wavBytes_getD_header samples r (20 + 1) (by omega), wavHeader_explicit]
  rfl

theorem wavBytes_read22 (samples : List ℚ) (r : ℕ) :
    readU16le (wavBytes samples r) 22 = 1 := by
  unfold readU16le
  rw [wavBytes_getD_header samples r 22 (by omega),
    wavBytes_getD_header samples r (22 + 1) (by omega), wavHeader_explicit]
  rfl

theorem wavBytes_read34 (samples : List ℚ) (r : ℕ) :
    readU16le (wavBytes samples r) 34 = 16 := by
  unfold readU16le
  rw [wavBytes_getD_header samples r 34 (by omega),
    wavBytes_getD_header samples r (34 + 1) (by omega), wavHeader_explicit]
  rfl

theorem wavBytes_take4 (samples : List ℚ) (r : ℕ) :
    (wavBytes samples r).take 4 = [82, 73, 70, 70] := by
  unfold wavBytes
  have hle4 : (4 : ℕ) ≤ (wavHeader r (samples.length * 2)).length := by
    rw [wavHeader_length]
    omega
  rw [List.take_append_of_le_length hle4, wavHeader_explicit]
  rfl

theorem wavBytes_drop8 (samples : List ℚ) (r : ℕ) :
    ((wavBytes samples r).drop 8).take 4 = [87, 65, 86, 69] := by
  unfold wavBytes
  have hleD : (8 : ℕ) ≤ (wavHeader r (samples.length * 2)).length := by
    rw [wavHeader_length]
    omega
  have hleT : (4 : ℕ)
      ≤ ((wavHeader r (samples.length * 2)).drop 8).length := by
    rw [List.length_drop, wavHeader_length]
    omega
  rw [List.drop_append_of_le_length hleD,
    List.take_append_of_le_length hleT, wavHeader_explicit]
  rfl

theorem wavBytes_drop12 (samples : List ℚ) (r : ℕ) :
    ((wavBytes samples r).drop 12).take 4 = [102, 109, 116, 32] := by
  unfold wavBytes
  have hleD : (12 : ℕ) ≤ (wavHeader r (samples.length * 2)).length := by
    rw [wavHeader_length]
    omega
  have hleT : (4 : ℕ)
      ≤ ((wavHeader r (samples.length * 2)).drop 12).length := by
    rw [List.length_drop, wavHeader_length]
    omega
  rw [List.drop_append_of_le_length hleD,
    List.take_append_of_le_length hleT, wavHeader_explicit]
  rfl

theorem wavBytes_drop36 (samples : List ℚ) (r : ℕ) :
    ((wavBytes samples r).drop 36).take 4 = [100, 97, 116, 97] := by
  unfold wavBytes
  have hleD : (36 : ℕ) ≤ (wavHeader r (samples.length * 2)).length := by
    rw [wavHeader_length]
    omega
  have hleT : (4 : ℕ)
      ≤ ((wavHeader r (samples.length * 2)).drop 36).length := by
    rw [List.length_drop, wavHeader_length]
    omega
  rw [List.drop_append_of_le_length hleD,
    List.take_append_of_le_length hleT, wavHeader_explicit]
  rfl

theorem wavBytes_data_byte0 (samples : List ℚ) (r i : ℕ) :
    (wavBytes samples r).getD (44 + 2 * i) 0
      = (pcmData samples).getD (2 * i) 0 := by
  unfold wavBytes
  have hle : (wavHeader r (samples.length * 2)).length ≤ 44 + 2 * i := by
    rw [wavHeader_length]
    omega
  rw [List.getD_append_right (wavHeader r (samples.length * 2))
    (pcmData samples) 0 (44 + 2 * i) hle, wavHeader_length]
  congr 1
  omega

theorem wavBytes_data_byte1 (samples : List ℚ) (r i : ℕ) :
    (wavBytes samples r).getD (44 + 2 * i + 1) 0
      = (pcmData samples).getD (2 * i + 1) 0 := by
  unfold wavBytes
  have hle : (wavHeader r (samples.length * 2)).length ≤ 44 + 2 * i + 1 := by
    rw [wavHeader_length]
    omega
  rw [List.getD_append_right (wavHeader r (samples.length * 2))
    (pcmData samples) 0 (44 + 2 * i + 1) hle, wavHeader_length]
  congr 1
  omega

theorem wavBytes_decode (samples : List ℚ) (r : ℕ) :
    ((List.range samples.length).map fun i =>
      toInt16 (readU16le (wavBytes samples r) (44 + 2 * i)))
      = samples.map encInt16 := by
  apply List.ext_getElem
  · simp
  · intro i hi1 hi2
    have hiS : i < samples.length := by simpa using hi2
    simp only [List.getElem_map, List.getElem_range]
    obtain ⟨hp0, hp1⟩ := pcmData_getD samples i hiS
    unfold readU16le
    rw [wavBytes_data_byte0 samples r i, wavBytes_data_byte1 samples r i,
      hp0, hp1, u16_decode _ (toUint16_lt _),
      toInt16_toUint16 _ (encInt16_bounds _).1 (encInt16_bounds _).2,
      List.getD_eq_getElem samples 0 hiS]

/-- Claim C8: encoding samples in `[-1, 1]` at sample rate `R` with
`encodeWav` and parsing the bytes back per the RIFF/WAVE layout
recovers sample rate `R`, mono channel count `1` and one decoded
16-bit value per sample, each within 1 LSB (`1/32767` for non-negative,
`1/32768` for negative inputs) of the original sample.  The u32 header
fields require `R` and the data size to fit in 32 bits. -/
theorem c8_wav_roundtrip (samples : List ℚ) (r : ℕ) (s : ℚ)
    (hr : r < 4294967296) (hm : samples.length * 2 < 4294967296)
    (h1 : -1 ≤ s) (h2 : s ≤ 1) :
    parseWav (encodeWav samples r) = some (r, 1, samples.map encInt16) ∧
    (0 ≤ s → |(encInt16 s : ℚ) / 32767 - s| ≤ 1 / 32767) ∧
    (s < 0 → |(encInt16 s : ℚ) / 32768 - s| ≤ 1 / 32768) := by
  refine ⟨?_, ?_, ?_⟩
  · rw [encodeWav_eq_wavBytes]
    have hcond : (wavBytes samples r).take 4 = [82, 73, 70, 70] ∧
        ((wavBytes samples r).drop 8).take 4 = [87, 65, 86, 69] ∧
        ((wavBytes samples r).drop 12).take 4 = [102, 109, 116, 32] ∧
        readU32le (wavBytes samples r) 16 = 16 ∧
        readU16le (wavBytes samples r) 20 = 1 ∧
        readU16le (wavBytes samples r) 34 = 16 ∧
        ((wavBytes samples r).drop 36).take 4 = [100, 97, 116, 97] ∧
        (wavBytes samples r).length
          = 44 + readU32le (wavBytes samples r) 40 := by
      refine ⟨wavBytes_take4 samples r, wavBytes_drop8 samples r,
        wavBytes_drop12 samples r, wavBytes_read16 samples r,
        wavBytes_read20 samples r, wavBytes_read34 samples r,
        wavBytes_drop36 samples r, ?_⟩
      rw [wavBytes_length, wavBytes_read40 samples r hm]
    unfold parseWav
    rw [if_pos hcond, wavBytes_read24 samples r hr,
      wavBytes_read22 samples r, wavBytes_read40 samples r hm,
      show samples.length * 2 / 2 = samples.length by omega,
      wavBytes_decode samples r]
  · intro hs0
    have hclamp : clamp1 s = s := by
      unfold clamp1
      rw [min_eq_right h2, max_eq_right h1]
    have henc : encInt16 s = ⌊s * 32767⌋ := by
      unfold encInt16
      rw [hclamp, if_neg (not_lt.mpr hs0)]
      unfold jsTrunc
      rw [if_pos (by nlinarith : (0 : ℚ) ≤ s * 32767)]
    rw [henc]
    have hf1 : (⌊s * 32767⌋ : ℚ) ≤ s * 32767 := Int.floor_le _
    have hf2 : s * 32767 - 1 < (⌊s * 32767⌋ : ℚ) := Int.sub_one_lt_floor _
    have key : (⌊s * 32767⌋ : ℚ) / 32767 - s
        = ((⌊s * 32767⌋ : ℚ) - s * 32767) / 32767 := by ring
    rw [key, abs_div, abs_of_pos (by norm_num : (0 : ℚ) < 32767)]
    apply (div_le_div_iff_of_pos_right (by norm_num : (0 : ℚ) < 32767)).mpr
    rw [abs_le]
    constructor <;> linarith
  · intro hs0
    have hclamp : clamp1 s = s := by
      unfold clamp1
      rw [min_eq_right h2, max_eq_right h1]
    have henc : encInt16 s = -⌊-(s * 32768)⌋ := by
      unfold encInt16
      rw [hclamp, if_pos hs0]
      unfold jsTrunc
      rw [if_neg (not_le.mpr (by nlinarith : s * 32768 < 0))]
    rw [henc]
    have hf1 : (⌊-(s * 32768)⌋ : ℚ) ≤ -(s * 32768) := Int.floor_le _
    have hf2 : -(s * 32768) - 1 < (⌊-(s * 32768)⌋ : ℚ) :=
      Int.sub_one_lt_floor _
    have key : ((-⌊-(s * 32768)⌋ : ℤ) : ℚ) / 32768 - s
        = (-(s * 32768) - (⌊-(s * 32768)⌋ : ℚ)) / 32768 := by
      push_cast
      ring
    rw [key, abs_div, abs_of_pos (by norm_num : (0 : ℚ) < 32768)]
    apply (div_le_div_iff_of_pos_right (by norm_num : (0 : ℚ) < 32768)).mpr
    rw [abs_le]
    constructor <;> linarith

/-- Witness for C8 at a concrete input: samples `[1/2, -1/3]` at
8000 Hz. -/
theorem c8_wav_roundtrip_witness :
    ((8000 : ℕ) < 4294967296) ∧
    (([1/2, -1/3] : List ℚ).length * 2 < 4294967296) ∧
    ((-1 : ℚ) ≤ 1/2) ∧ ((1/2 : ℚ) ≤ 1) ∧
    (parseWav (encodeWav [1/2, -1/3] 8000)
        = some (8000, 1, ([1/2, -1/3] : List ℚ).map encInt16) ∧
    ((0 : ℚ) ≤ 1/2 → |(encInt16 (1/2) : ℚ) / 32767 - 1/2| ≤ 1 / 32767) ∧
    ((1/2 : ℚ) < 0 → |(encInt16 (1/2) : ℚ) / 32768 - 1/2| ≤ 1 / 32768)) :=
  ⟨by norm_num, by norm_num, by norm_num, by norm_num,
    c8_wav_roundtrip [1/2, -1/3] 8000 (1/2) (by norm_num) (by norm_num)
      (by norm_num) (by norm_num)⟩

/-- The transcendental functions used by the engine (`Math.PI`,
`Math.cos`, `Math.sin`), passed as an explicit model so that the
embedding stays executable; the claims under study hold for every
model. -/
structure TrigModel (α : Type) where
  pi : α
  cos : α → α
  sin : α → α

/-- A concrete trivial trig model for evaluating the definitions. -/
def trigZero : TrigModel ℚ := { pi := 0, cos := fun _ => 0, sin := fun _ => 0 }

/-- JS division: a finite value divided by zero is non-finite
(`Infinity` or `NaN`), modelled by `none`. -/
def jsDiv (a b : ℚ) : Option ℚ := if b = 0 then none else some (a / b)

/-- JS multiplication: any product with a non-finite operand is
non-finite (in particular `Infinity * 0 = NaN`). -/
def jsMul : Option ℚ → Option ℚ → Option ℚ
  | some a, some b => some (a * b)
  | _, _ => none

/-- `buildPeriodicFromSamples` (AudioEngine.ts lines 1069-1090): clamp
the buffer, cap the harmonic count at `min(maxHarmonics, floor(M/2))`,
set the DC term `real[0] = (2/M) * sum` with `imag[0] = 0`, and for
`k = 1..harmonics` accumulate
`ak = sum s[n]*cos(2*pi*k*n/M)`, `bk = sum s[n]*sin(2*pi*k*n/M)` scaled
by `2/M`.  The `2/M` scaling is non-finite when `M = 0` (JS
`2/0 = Infinity`, `Infinity * 0 = NaN`), which `jsDiv`/`jsMul`
capture. -/
def buildPeriodicFromSamples (T : TrigModel ℚ) (samples : List ℚ)
    (maxHarmonics : ℕ) : List (Option ℚ) × List (Option ℚ) :=
  let M := samples.length
  let s := samples.map clamp1
  let harmonics := min maxHarmonics (M / 2)
  let scale := jsDiv 2 (M : ℚ)
  let dc := ((List.range M).map fun n => s.getD n 0).sum
  let realArr := jsMul scale (some dc) ::
    (List.range harmonics).map fun (j : ℕ) =>
      jsMul scale (some (((List.range M).map fun n =>
        s.getD n 0
          * T.cos (2 * T.pi * ((j : ℚ) + 1) * (n : ℚ) / (M : ℚ))).sum))
  let imagArr := some 0 ::
    (List.range harmonics).map fun (j : ℕ) =>
      jsMul scale (some (((List.range M).map fun n =>
        s.getD n 0
          * T.sin (2 * T.pi * ((j : ℚ) + 1) * (n : ℚ) / (M : ℚ))).sum))
  (realArr, imagArr)

/-- The per-frequency harmonic cap of `buildPeriodicForFreq`
(AudioEngine.ts lines 1092-1096):
`maxH = Math.max(1, Math.floor(nyquist / Math.max(1, freq)))`. -/
def maxHForFreq (freq sampleRate : ℚ) : ℕ :=
  max 1 (⌊(sampleRate / 2) / max 1 freq⌋.toNat)

/-- `buildPeriodicForFreq` (AudioEngine.ts lines 1092-1096). -/
def buildPeriodicForFreq (T : TrigModel ℚ) (samples : List ℚ)
    (freq sampleRate : ℚ) : List (Option ℚ) × List (Option ℚ) :=
  buildPeriodicFromSamples T samples (min 64 (maxHForFreq freq sampleRate))

/-- The harmonic count produced by `buildPeriodicForFreq` (the
`harmonics` variable: coefficient arrays have length `harmonics + 1`). -/
def harmonicCountForFreq (M : ℕ) (freq sampleRate : ℚ) : ℕ :=
  min (min 64 (maxHForFreq freq sampleRate)) (M / 2)

/-- The discrete-Fourier-series cosine coefficient from the spec
(§4.1 and claim C9): `(2/M) * sum over n of s[n]*cos(2*pi*k*n/M)` with
each sample clamped to `[-1, 1]`. -/
def specFourierCos (T : TrigModel ℚ) (buf : List ℚ) (k : ℕ) : ℚ :=
  (2 / (buf.length : ℚ)) *
    ∑ n ∈ Finset.range buf.length,
      clamp1 (buf.getD n 0)
        * T.cos (2 * T.pi * (k : ℚ) * (n : ℚ) / (buf.length : ℚ))

/-- The sine coefficient from the spec. -/
def specFourierSin (T : TrigModel ℚ) (buf : List ℚ) (k : ℕ) : ℚ :=
  (2 / (buf.length : ℚ)) *
    ∑ n ∈ Finset.range buf.length,
      clamp1 (buf.getD n 0)
        * T.sin (2 * T.pi * (k : ℚ) * (n : ℚ) / (buf.length : ℚ))

theorem listSum_range_eq (f : ℕ → ℚ) (M : ℕ) :
    ((List.range M).map f).sum = ∑ n ∈ Finset.range M, f n := by
  induction M with
  | zero => simp
  | succ m ih =>
    rw [List.range_succ, List.map_append, List.sum_append,
      Finset.sum_range_succ, ih]
    simp

theorem getD_map_clamp (l : List ℚ) (n : ℕ) (h : n < l.length) :
    (l.map clamp1).getD n 0 = clamp1 (l.getD n 0) := by
  rw [List.getD_eq_getElem (l.map clamp1) 0 (by simpa using h),
    List.getD_eq_getElem l 0 h]
  simp

theorem getD_map_range (F : ℕ → Option ℚ) (m j : ℕ) (hj : j < m) :
    ((List.range m).map F).getD j none = F j := by
  rw [List.getD_eq_getElem ((List.range m).map F) none (by simpa using hj)]
  simp

theorem buildPeriodic_fst_eq (T : TrigModel ℚ) (samples : List ℚ)
    (maxHarmonics : ℕ) :
    (buildPeriodicFromSamples T samples maxHarmonics).1
      = jsMul (jsDiv 2 (samples.length : ℚ))
          (some (((List.range samples.length).map fun n =>
            (samples.map clamp1).getD n 0).sum)) ::
        (List.range (min maxHarmonics (samples.length / 2))).map
          (fun (j : ℕ) =>
            jsMul (jsDiv 2 (samples.length : ℚ))
              (some (((List.range samples.length).map fun n =>
                (samples.map clamp1).getD n 0
                  * T.cos (2 * T.pi * ((j : ℚ) + 1) * (n : ℚ)
                      / (samples.length : ℚ))).sum))) := rfl

theorem buildPeriodic_snd_eq (T : TrigModel ℚ) (samples : List ℚ)
    (maxHarmonics : ℕ) :
    (buildPeriodicFromSamples T samples maxHarmonics).2
      = some 0 ::
        (List.range (min maxHarmonics (samples.length / 2))).map
          (fun (j : ℕ) =>
            jsMul (jsDiv 2 (samples.length : ℚ))
              (some (((List.range samples.length).map fun n =>
                (samples.map clamp1).getD n 0
                  * T.sin (2 * T.pi * ((j : ℚ) + 1) * (n : ℚ)
                      / (samples.length : ℚ))).sum))) := rfl

/-- Claim C9: for a custom buffer of length `M >= 1` the computed
spectrum satisfies the discrete Fourier series reference definition:
the DC entry is `(2/M) * sum` of the clamped samples with its sine
term zero, and for each harmonic index `1 <= k <= harmonics` the
cosine and sine entries are
`(2/M) * sum s[n]*cos(2*pi*k*n/M)` and `(2/M) * sum s[n]*sin(2*pi*k*n/M)`
over the clamped samples, for every trig model. -/
theorem c9_fourier_coefficients (T : TrigModel ℚ) (samples : List ℚ)
    (maxHarmonics k : ℕ) (hM : 1 ≤ samples.length) (hk1 : 1 ≤ k)
    (hk2 : k ≤ min maxHarmonics (samples.length / 2)) :
    (buildPeriodicFromSamples T samples maxHarmonics).1.getD 0 none
        = some ((2 / (samples.length : ℚ)) *
            ∑ n ∈ Finset.range samples.length, clamp1 (samples.getD n 0)) ∧
    (buildPeriodicFromSamples T samples maxHarmonics).2.getD 0 none
        = some 0 ∧
    (buildPeriodicFromSamples T samples maxHarmonics).1.getD k none
        = some (specFourierCos T samples k) ∧
    (buildPeriodicFromSamples T samples maxHarmonics).2.getD k none
        = some (specFourierSin T samples k) := by
  have hM0 : ((samples.length : ℚ)) ≠ 0 := by
    have : (0 : ℚ) < (samples.length : ℚ) := by
      exact_mod_cast Nat.lt_of_lt_of_le Nat.zero_lt_one hM
    linarith
  have hscale : jsDiv 2 (samples.length : ℚ)
      = some (2 / (samples.length : ℚ)) := by
    simp [jsDiv, hM0]
  obtain ⟨j, rfl⟩ : ∃ j, k = j + 1 := by
    cases k with
    | zero => omega
    | succ j => exact ⟨j, rfl⟩
  have hj : j < min maxHarmonics (samples.length / 2) := by omega
  have hcongDC : ((List.range samples.length).map fun n =>
      (samples.map clamp1).getD n 0)
      = ((List.range samples.length).map fun n =>
        clamp1 (samples.getD n 0)) := by
    apply List.map_congr_left
    intro n hn
    exact getD_map_clamp samples n (by simpa using hn)
  refine ⟨?_, ?_, ?_, ?_⟩
  · rw [buildPeriodic_fst_eq, List.getD_cons_zero, hscale, hcongDC,
      listSum_range_eq]
    rfl
  · rw [buildPeriodic_snd_eq, List.getD_cons_zero]
  · rw [buildPeriodic_fst_eq, List.getD_cons_succ,
      getD_map_range _ _ j hj, hscale]
    have hcong : ((List.range samples.length).map fun n =>
        (samples.map clamp1).getD n 0
          * T.cos (2 * T.pi * ((j : ℚ) + 1) * (n : ℚ)
              / (samples.length : ℚ)))
        = ((List.range samples.length).map fun n =>
          clamp1 (samples.getD n 0)
            * T.cos (2 * T.pi * (((j + 1 : ℕ)) : ℚ) * (n : ℚ)
                / (samples.length : ℚ))) := by
      apply List.map_congr_left
      intro n hn
      rw [getD_map_clamp samples n (by simpa using hn)]
      congr 2
      push_cast
      ring
    rw [hcong, listSum_range_eq]
    rfl
  · rw [buildPeriodic_snd_eq, List.getD_cons_succ,
      getD_map_range _ _ j hj, hscale]
    have hcong : ((List.range samples.length).map fun n =>
        (samples.map clamp1).getD n 0
          * T.sin (2 * T.pi * ((j : ℚ) + 1) * (n : ℚ)
              / (samples.length : ℚ)))
        = ((List.range samples.length).map fun n =>
          clamp1 (samples.getD n 0)
            * T.sin (2 * T.pi * (((j + 1 : ℕ)) : ℚ) * (n : ℚ)
                / (samples.length : ℚ))) := by
      apply List.map_congr_left
      intro n hn
      rw [getD_map_clamp samples n (by simpa using hn)]
      congr 2
      push_cast
      ring
    rw [hcong, listSum_range_eq]
    rfl

/-- Witness for C9: the buffer [1, 1] with the zero trig model,
harmonic cap 64 and harmonic index 1 satisfies the hypotheses, and the
theorem yields the Fourier coefficients there. -/
theorem c9_fourier_coefficients_witness :
    (1 ≤ ([1, 1] : List ℚ).length ∧ 1 ≤ 1 ∧
      1 ≤ min 64 (([1, 1] : List ℚ).length / 2)) ∧
    ((buildPeriodicFromSamples trigZero [1, 1] 64).1.getD 0 none
        = some ((2 / (([1, 1] : List ℚ).length : ℚ)) *
            ∑ n ∈ Finset.range ([1, 1] : List ℚ).length,
              clamp1 (([1, 1] : List ℚ).getD n 0)) ∧
      (buildPeriodicFromSamples trigZero [1, 1] 64).2.getD 0 none
        = some 0 ∧
      (buildPeriodicFromSamples trigZero [1, 1] 64).1.getD 1 none
        = some (specFourierCos trigZero [1, 1] 1) ∧
      (buildPeriodicFromSamples trigZero [1, 1] 64).2.getD 1 none
        = some (specFourierSin trigZero [1, 1] 1)) :=
  ⟨⟨by decide, by decide, by decide⟩,
    c9_fourier_coefficients trigZero [1, 1] 64 1 (by decide) (by decide)
      (by decide)⟩

theorem buildPeriodic_lengths (T : TrigModel ℚ) (samples : List ℚ)
    (maxH : ℕ) :
    (buildPeriodicFromSamples T samples maxH).1.length
        = min maxH (samples.length / 2) + 1 ∧
    (buildPeriodicFromSamples T samples maxH).2.length
        = min maxH (samples.length / 2) + 1 := by
  constructor
  · rw [buildPeriodic_fst_eq]
    simp
  · rw [buildPeriodic_snd_eq]
    simp

theorem buildPeriodic_all_isSome (T : TrigModel ℚ) (samples : List ℚ)
    (maxH : ℕ) (hM : 1 ≤ samples.length) :
    ((buildPeriodicFromSamples T samples maxH).1.all Option.isSome)
        = true ∧
    ((buildPeriodicFromSamples T samples maxH).2.all Option.isSome)
        = true := by
  have hM0 : ((samples.length : ℚ)) ≠ 0 := by
    have : (0 : ℚ) < (samples.length : ℚ) := by
      exact_mod_cast Nat.lt_of_lt_of_le Nat.zero_lt_one hM
    linarith
  have hscale : jsDiv 2 (samples.length : ℚ)
      = some (2 / (samples.length : ℚ)) := by
    simp [jsDiv, hM0]
  constructor
  · rw [buildPeriodic_fst_eq]
    apply List.all_eq_true.mpr
    intro x hx
    rcases List.mem_cons.mp hx with h | h
    · subst h
      rw [hscale]
      rfl
    · rcases List.mem_map.mp h with ⟨j, _, rfl⟩
      rw [hscale]
      rfl
  · rw [buildPeriodic_snd_eq]
    apply List.all_eq_true.mpr
    intro x hx
    rcases List.mem_cons.mp hx with h | h
    · subst h
      rfl
    · rcases List.mem_map.mp h with ⟨j, _, rfl⟩
      rw [hscale]
      rfl

/-- Claim C2 (amended): for a buffer of length `M >= 1` the spectrum
builder produces coefficient arrays of length `harmonics + 1` where
`harmonics = min(min(64, max(1, floor(nyquist / max(1, freq)))),
floor(M/2))`; that count is at most `min(64, floor(M/2))` and at most
`max(1, floor(nyquist / max(1, freq)))` — but not necessarily at most
`floor(nyquist/freq)`, because the code clamps the frequency-derived
cap below by 1 — and when `M >= 1` every returned cosine and sine
coefficient is finite. -/
theorem c2_spectrum_bounds (T : TrigModel ℚ) (samples : List ℚ)
    (freq sampleRate : ℚ) (hM : 1 ≤ samples.length) :
    (buildPeriodicForFreq T samples freq sampleRate).1.length
        = harmonicCountForFreq samples.length freq sampleRate + 1 ∧
    (buildPeriodicForFreq T samples freq sampleRate).2.length
        = harmonicCountForFreq samples.length freq sampleRate + 1 ∧
    harmonicCountForFreq samples.length freq sampleRate
        ≤ min 64 (samples.length / 2) ∧
    harmonicCountForFreq samples.length freq sampleRate
        ≤ max 1 (⌊(sampleRate / 2) / max 1 freq⌋.toNat) ∧
    ((buildPeriodicForFreq T samples freq sampleRate).1.all
        Option.isSome) = true ∧
    ((buildPeriodicForFreq T samples freq sampleRate).2.all
        Option.isSome) = true := by
  have hlen := buildPeriodic_lengths T samples
    (min 64 (maxHForFreq freq sampleRate))
  have hsome := buildPeriodic_all_isSome T samples
    (min 64 (maxHForFreq freq sampleRate)) hM
  refine ⟨?_, ?_, ?_, ?_, hsome.1, hsome.2⟩
  · rw [show (buildPeriodicForFreq T samples freq sampleRate).1
        = (buildPeriodicFromSamples T samples
            (min 64 (maxHForFreq freq sampleRate))).1 from rfl,
      hlen.1]
    simp only [harmonicCountForFreq]
  · rw [show (buildPeriodicForFreq T samples freq sampleRate).2
        = (buildPeriodicFromSamples T samples
            (min 64 (maxHForFreq freq sampleRate))).2 from rfl,
      hlen.2]
    simp only [harmonicCountForFreq]
  · simp only [harmonicCountForFreq]
    omega
  · simp only [harmonicCountForFreq, maxHForFreq]
    omega

/-- Witness for C2: the buffer [1, 1] at frequency 440 and sample rate
44100 satisfies the hypothesis, and the theorem yields the lengths,
bounds and finiteness there. -/
theorem c2_spectrum_bounds_witness :
    1 ≤ ([1, 1] : List ℚ).length ∧
    ((buildPeriodicForFreq trigZero [1, 1] 440 44100).1.length
        = harmonicCountForFreq ([1, 1] : List ℚ).length 440 44100 + 1 ∧
      (buildPeriodicForFreq trigZero [1, 1] 440 44100).2.length
        = harmonicCountForFreq ([1, 1] : List ℚ).length 440 44100 + 1 ∧
      harmonicCountForFreq ([1, 1] : List ℚ).length 440 44100
        ≤ min 64 (([1, 1] : List ℚ).length / 2) ∧
      harmonicCountForFreq ([1, 1] : List ℚ).length 440 44100
        ≤ max 1 (⌊((44100 : ℚ) / 2) / max 1 440⌋.toNat) ∧
      ((buildPeriodicForFreq trigZero [1, 1] 440 44100).1.all
          Option.isSome) = true ∧
      ((buildPeriodicForFreq trigZero [1, 1] 440 44100).2.all
          Option.isSome) = true) :=
  ⟨by decide, c2_spectrum_bounds trigZero [1, 1] 440 44100 (by decide)⟩

/-- Counterexample for C2 as stated: at `freq = sampleRate = 44100`
(above Nyquist) the code produces harmonic count 1 although
`floor(nyquist/freq) = floor(22050/44100) = 0`, because
`buildPeriodicForFreq` clamps the cap below by 1; and for the empty
buffer (`M = 0`) the DC coefficient is non-finite (JS `2/0 = Infinity`
and `Infinity * 0 = NaN`), modelled as `none`. -/
theorem c2_counterexample :
    harmonicCountForFreq 4 44100 44100 = 1 ∧
    (⌊((44100 : ℚ) / 2) / max 1 44100⌋ = 0) ∧
    (buildPeriodicFromSamples trigZero [] 64).1 = [none] := by
  have hfloor : (⌊((44100 : ℚ) / 2) / max 1 44100⌋ : ℤ) = 0 := by
    rw [Int.floor_eq_zero_iff]
    constructor
    · norm_num
    · norm_num
  refine ⟨?_, hfloor, ?_⟩
  · simp only [harmonicCountForFreq, maxHForFreq, hfloor]
    rfl
  · norm_num [buildPeriodicFromSamples, jsDiv, jsMul]

/-- Amplitude ADSR record (AudioEngine.ts line 112). -/
structure ADSRRec where
  attack : ℚ
  decay : ℚ
  sustain : ℚ
  release : ℚ
deriving DecidableEq

/-- Filter envelope record (AudioEngine.ts line 116). -/
structure FEnvRec where
  attack : ℚ
  decay : ℚ
  sustain : ℚ
  release : ℚ
  amountHz : ℚ
deriving DecidableEq

/-- Oscillator waveform selector (`Wave`, AudioEngine.ts line 3). -/
inductive Wave where
  | sine
  | square
  | sawtooth
  | triangle
  | custom
deriving DecidableEq

/-- The numeric engine parameters reachable through the setter API
(AudioEngine.ts lines 95-150), plus the wave selection and custom
sample buffer read by the offline render. -/
structure Params where
  currentWave : Wave
  customSamples : Option (List ℚ)
  currentFreq : ℚ
  currentMaster : ℚ
  filterCutoff : ℚ
  filterQ : ℚ
  distAmount : ℚ
  adsr : ADSRRec
  fenv : FEnvRec
  ampVelSense : ℚ
  filtVelSense : ℚ
  filtKeytrack : ℚ
  maxVoices : ℤ
  unisonCount : ℤ
  unisonDetune : ℚ
  stereoSpread : ℚ
  lfoRate : ℚ
  vibratoCents : ℚ
  filterLfoCents : ℚ
  tremoloDepth : ℚ
  noiseLevel : ℚ
  delayTime : ℚ
  delayFeedbackAmt : ℚ
  delayMix : ℚ
  reverbSize : ℚ
  reverbMix : ℚ
deriving DecidableEq

/-- JS `Math.max(lo, Math.min(hi, x))`. -/
def clampR (lo hi x : ℚ) : ℚ := max lo (min hi x)

/-- Class field initializers (AudioEngine.ts lines 95-150). -/
def defaultParams : Params :=
  { currentWave := Wave.sine, customSamples := none,
    currentFreq := 220, currentMaster := 1/2, filterCutoff := 1200,
    filterQ := 4/5, distAmount := 0,
    adsr := ⟨1/100, 1/10, 4/5, 1/5⟩,
    fenv := ⟨1/200, 1/5, 0, 1/5, 0⟩,
    ampVelSense := 1, filtVelSense := 1/2, filtKeytrack := 0,
    maxVoices := 16, unisonCount := 1, unisonDetune := 0,
    stereoSpread := 0, lfoRate := 5, vibratoCents := 0,
    filterLfoCents := 0, tremoloDepth := 0, noiseLevel := 0,
    delayTime := 1/4, delayFeedbackAmt := 1/4, delayMix := 0,
    reverbSize := 2, reverbMix := 0 }

/-- `setFrequency` (lines 317-320): stores the input WITHOUT any
clamp. -/
def setFrequency (p : Params) (freq : ℚ) : Params :=
  { p with currentFreq := freq }

def setMasterGain (p : Params) (g : ℚ) : Params :=
  { p with currentMaster := clampR 0 1 g }

def setFilterCutoff (p : Params) (hz : ℚ) : Params :=
  { p with filterCutoff := clampR 20 20000 hz }

def setFilterQ (p : Params) (q : ℚ) : Params :=
  { p with filterQ := clampR (1/10000) 40 q }

def setDistortion (p : Params) (a : ℚ) : Params :=
  { p with distAmount := clampR 0 1 a }

def setADSR (p : Params) (a d s r : ℚ) : Params :=
  { p with adsr := ⟨max 0 a, max 0 d, clampR 0 1 s, max 0 r⟩ }

def setFilterEnv (p : Params) (a d s r amt : ℚ) : Params :=
  { p with fenv := ⟨max 0 a, max 0 d, clampR 0 1 s, max 0 r, max 0 amt⟩ }

def setAmpVelocitySensitivity (p : Params) (a : ℚ) : Params :=
  { p with ampVelSense := clampR 0 1 a }

def setFilterVelocitySensitivity (p : Params) (a : ℚ) : Params :=
  { p with filtVelSense := clampR 0 1 a }

def setMaxVoices (p : Params) (n : ℚ) : Params :=
  { p with maxVoices := max 1 ⌊n⌋ }

def setUnisonCount (p : Params) (n : ℚ) : Params :=
  { p with unisonCount := max 1 (min 7 ⌊n⌋) }

def setUnisonDetune (p : Params) (c : ℚ) : Params :=
  { p with unisonDetune := clampR 0 100 c }

def setStereoSpread (p : Params) (a : ℚ) : Params :=
  { p with stereoSpread := clampR 0 1 a }

def setFilterKeytrack (p : Params) (a : ℚ) : Params :=
  { p with filtKeytrack := clampR 0 1 a }

def setLfoRate (p : Params) (hz : ℚ) : Params :=
  { p with lfoRate := clampR (1/10) 30 hz }

def setVibratoCents (p : Params) (c : ℚ) : Params :=
  { p with vibratoCents := clampR 0 200 c }

def setFilterLfoDepth (p : Params) (hz : ℚ) : Params :=
  { p with filterLfoCents := clampR 0 4800 hz }

def setTremoloDepth (p : Params) (a : ℚ) : Params :=
  { p with tremoloDepth := clampR 0 1 a }

def setNoiseLevel (p : Params) (a : ℚ) : Params :=
  { p with noiseLevel := clampR 0 1 a }

def setDelay (p : Params) (time feedback mix : ℚ) : Params :=
  { p with delayTime := clampR 0 2 time,
           delayFeedbackAmt := clampR 0 (19/20) feedback,
           delayMix := clampR 0 1 mix }

def setReverb (p : Params) (size mix : ℚ) : Params :=
  { p with reverbSize := clampR (1/10) 6 size,
           reverbMix := clampR 0 1 mix }

theorem clampR_mem (lo hi x : ℚ) (h : lo ≤ hi) :
    lo ≤ clampR lo hi x ∧ clampR lo hi x ≤ hi := by
  unfold clampR
  exact ⟨le_max_left _ _, max_le h (min_le_left _ _)⟩

/-- Claim C4 (amended): every numeric parameter setter stores a value
inside its documented range — master gain, distortion, sensitivities,
keytrack, stereo spread, tremolo, noise and mixes in [0,1]; cutoff in
[20,20000]; Q in [0.0001,40]; ADSR / filter-envelope times and depth
at least 0 with sustain in [0,1]; max voices at least 1; unison count
in [1,7]; detune in [0,100]; LFO rate in [0.1,30]; vibrato in [0,200];
filter LFO in [0,4800]; delay time in [0,2] with feedback in [0,0.95];
reverb size in [0.1,6] — EXCEPT `setFrequency`, which stores its input
verbatim without clamping. -/
theorem c4_setters_clamp (p : Params) (x a d s r amt t fb mx sz : ℚ) :
    (setFrequency p x).currentFreq = x ∧
    (0 ≤ (setMasterGain p x).currentMaster ∧
      (setMasterGain p x).currentMaster ≤ 1) ∧
    (20 ≤ (setFilterCutoff p x).filterCutoff ∧
      (setFilterCutoff p x).filterCutoff ≤ 20000) ∧
    (1/10000 ≤ (setFilterQ p x).filterQ ∧
      (setFilterQ p x).filterQ ≤ 40) ∧
    (0 ≤ (setDistortion p x).distAmount ∧
      (setDistortion p x).distAmount ≤ 1) ∧
    (0 ≤ (setADSR p a d s r).adsr.attack ∧
      0 ≤ (setADSR p a d s r).adsr.decay ∧
      0 ≤ (setADSR p a d s r).adsr.sustain ∧
      (setADSR p a d s r).adsr.sustain ≤ 1 ∧
      0 ≤ (setADSR p a d s r).adsr.release) ∧
    (0 ≤ (setFilterEnv p a d s r amt).fenv.attack ∧
      0 ≤ (setFilterEnv p a d s r amt).fenv.decay ∧
      0 ≤ (setFilterEnv p a d s r amt).fenv.sustain ∧
      (setFilterEnv p a d s r amt).fenv.sustain ≤ 1 ∧
      0 ≤ (setFilterEnv p a d s r amt).fenv.release ∧
      0 ≤ (setFilterEnv p a d s r amt).fenv.amountHz) ∧
    (0 ≤ (setAmpVelocitySensitivity p x).ampVelSense ∧
      (setAmpVelocitySensitivity p x).ampVelSense ≤ 1) ∧
    (0 ≤ (setFilterVelocitySensitivity p x).filtVelSense ∧
      (setFilterVelocitySensitivity p x).filtVelSense ≤ 1) ∧
    (0 ≤ (setFilterKeytrack p x).filtKeytrack ∧
      (setFilterKeytrack p x).filtKeytrack ≤ 1) ∧
    1 ≤ (setMaxVoices p x).maxVoices ∧
    (1 ≤ (setUnisonCount p x).unisonCount ∧
      (setUnisonCount p x).unisonCount ≤ 7) ∧
    (0 ≤ (setUnisonDetune p x).unisonDetune ∧
      (setUnisonDetune p x).unisonDetune ≤ 100) ∧
    (0 ≤ (setStereoSpread p x).stereoSpread ∧
      (setStereoSpread p x).stereoSpread ≤ 1) ∧
    (1/10 ≤ (setLfoRate p x).lfoRate ∧ (setLfoRate p x).lfoRate ≤ 30) ∧
    (0 ≤ (setVibratoCents p x).vibratoCents ∧
      (setVibratoCents p x).vibratoCents ≤ 200) ∧
    (0 ≤ (setFilterLfoDepth p x).filterLfoCents ∧
      (setFilterLfoDepth p x).filterLfoCents ≤ 4800) ∧
    (0 ≤ (setTremoloDepth p x).tremoloDepth ∧
      (setTremoloDepth p x).tremoloDepth ≤ 1) ∧
    (0 ≤ (setNoiseLevel p x).noiseLevel ∧
      (setNoiseLevel p x).noiseLevel ≤ 1) ∧
    (0 ≤ (setDelay p t fb mx).delayTime ∧
      (setDelay p t fb mx).delayTime ≤ 2 ∧
      0 ≤ (setDelay p t fb mx).delayFeedbackAmt ∧
      (setDelay p t fb mx).delayFeedbackAmt ≤ 19/20 ∧
      0 ≤ (setDelay p t fb mx).delayMix ∧
      (setDelay p t fb mx).delayMix ≤ 1) ∧
    (1/10 ≤ (setReverb p sz mx).reverbSize ∧
      (setReverb p sz mx).reverbSize ≤ 6 ∧
      0 ≤ (setReverb p sz mx).reverbMix ∧
      (setReverb p sz mx).reverbMix ≤ 1) :=
  ⟨rfl,
    clampR_mem 0 1 x (by norm_num),
    clampR_mem 20 20000 x (by norm_num),
    clampR_mem (1/10000) 40 x (by norm_num),
    clampR_mem 0 1 x (by norm_num),
    ⟨le_max_left 0 a, le_max_left 0 d,
      (clampR_mem 0 1 s (by norm_num)).1,
      (clampR_mem 0 1 s (by norm_num)).2, le_max_left 0 r⟩,
    ⟨le_max_left 0 a, le_max_left 0 d,
      (clampR_mem 0 1 s (by norm_num)).1,
      (clampR_mem 0 1 s (by norm_num)).2, le_max_left 0 r,
      le_max_left 0 amt⟩,
    clampR_mem 0 1 x (by norm_num),
    clampR_mem 0 1 x (by norm_num),
    clampR_mem 0 1 x (by norm_num),
    le_max_left 1 ⌊x⌋,
    ⟨le_max_left 1 (min 7 ⌊x⌋),
      max_le (by norm_num) (min_le_left 7 ⌊x⌋)⟩,
    clampR_mem 0 100 x (by norm_num),
    clampR_mem 0 1 x (by norm_num),
    clampR_mem (1/10) 30 x (by norm_num),
    clampR_mem 0 200 x (by norm_num),
    clampR_mem 0 4800 x (by norm_num),
    clampR_mem 0 1 x (by norm_num),
    clampR_mem 0 1 x (by norm_num),
    ⟨(clampR_mem 0 2 t (by norm_num)).1, (clampR_mem 0 2 t (by norm_num)).2,
      (clampR_mem 0 (19/20) fb (by norm_num)).1,
      (clampR_mem 0 (19/20) fb (by norm_num)).2,
      (clampR_mem 0 1 mx (by norm_num)).1,
      (clampR_mem 0 1 mx (by norm_num)).2⟩,
    ⟨(clampR_mem (1/10) 6 sz (by norm_num)).1,
      (clampR_mem (1/10) 6 sz (by norm_num)).2,
      (clampR_mem 0 1 mx (by norm_num)).1,
      (clampR_mem 0 1 mx (by norm_num)).2⟩⟩

/-- Counterexample for C4 as stated: `setFrequency` does NOT clamp —
the input -1 is stored verbatim, so the stored base frequency is
negative, outside every admissible frequency range (the other setters
would have clamped a negative input to their lower bound). -/
theorem c4_counterexample :
    (setFrequency defaultParams (-1)).currentFreq = -1 ∧
    (setFrequency defaultParams (-1)).currentFreq < 0 := by
  refine ⟨rfl, ?_⟩
  show (-1 : ℚ) < 0
  norm_num

/-- `computeKeytrackedCutoff` (AudioEngine.ts lines 966-970), with the
transcendental functions `Math.pow(2, -)` and `Math.log2` passed as
parameters: `semis = log2(freq/440) * 12`,
`factor = 2^((filtKeytrack * semis) / 12)`, result
`max(20, min(20000, filterCutoff * factor))`. -/
def computeKeytrackedCutoff {α : Type*} [LinearOrderedField α]
    (exp2 log2 : α → α) (filtKeytrack filterCutoff freq : α) : α :=
  let semis := log2 (freq / 440) * 12
  let factor := exp2 (filtKeytrack * semis / 12)
  max 20 (min 20000 (filterCutoff * factor))

/-- The value before the final clamp to [20, 20000]. -/
def preClampCutoff {α : Type*} [LinearOrderedField α]
    (exp2 log2 : α → α) (filtKeytrack filterCutoff freq : α) : α :=
  filterCutoff * exp2 (filtKeytrack * (log2 (freq / 440) * 12) / 12)

/-- Spec §4.3: `semitonesFromA440(f) = 12 * log2(f/440)`. -/
def semitonesFromA440 {α : Type*} [LinearOrderedField α]
    (log2 : α → α) (f : α) : α :=
  12 * log2 (f / 440)

/-- Spec §4.3: the keytracked base cutoff written exactly as the spec
formula `clamp(configuredCutoff * 2^(keytrackAmount *
semitonesFromA440(f) / 12), 20, 20000)`. -/
def specKeytrackedCutoff {α : Type*} [LinearOrderedField α]
    (exp2 log2 : α → α) (kt cutoff f : α) : α :=
  max 20 (min 20000 (cutoff * exp2 (kt * semitonesFromA440 log2 f / 12)))

/-- Claim C5: with `exp2 = Real.rpow 2` and `log2 = Real.logb 2`, the
code's keytracked cutoff equals the spec formula, lies in [20, 20000],
and with keytrack 1 the pre-clamp cutoff one octave above `f` is
exactly double the pre-clamp cutoff at `f`. -/
theorem c5_keytrack_cutoff (kt cutoff f : ℝ) (hf : 0 < f) :
    computeKeytrackedCutoff (fun x => (2:ℝ) ^ x) (Real.logb 2)
        kt cutoff f
      = specKeytrackedCutoff (fun x => (2:ℝ) ^ x) (Real.logb 2)
          kt cutoff f ∧
    20 ≤ computeKeytrackedCutoff (fun x => (2:ℝ) ^ x) (Real.logb 2)
        kt cutoff f ∧
    computeKeytrackedCutoff (fun x => (2:ℝ) ^ x) (Real.logb 2)
        kt cutoff f ≤ 20000 ∧
    preClampCutoff (fun x => (2:ℝ) ^ x) (Real.logb 2) 1 cutoff (2 * f)
      = 2 * preClampCutoff (fun x => (2:ℝ) ^ x) (Real.logb 2)
          1 cutoff f := by
  refine ⟨?_, ?_, ?_, ?_⟩
  · show max 20 (min 20000
        (cutoff * (2:ℝ) ^ (kt * (Real.logb 2 (f / 440) * 12) / 12)))
      = max 20 (min 20000
        (cutoff * (2:ℝ) ^ (kt * (12 * Real.logb 2 (f / 440)) / 12)))
    have harg : kt * (Real.logb 2 (f / 440) * 12) / 12
        = kt * (12 * Real.logb 2 (f / 440)) / 12 := by ring
    rw [harg]
  · exact le_max_left _ _
  · exact max_le (by norm_num) (min_le_left _ _)
  · show cutoff * (2:ℝ) ^ ((1:ℝ) * (Real.logb 2 (2 * f / 440) * 12) / 12)
      = 2 * (cutoff * (2:ℝ) ^ ((1:ℝ) * (Real.logb 2 (f / 440) * 12) / 12))
    have hfne : f / 440 ≠ 0 := ne_of_gt (by positivity)
    have h440 : (2:ℝ) * f / 440 = 2 * (f / 440) := by ring
    have hb : Real.logb 2 (2 * f / 440)
        = 1 + Real.logb 2 (f / 440) := by
      rw [h440, Real.logb_mul two_ne_zero hfne,
        Real.logb_self_eq_one (by norm_num)]
    rw [hb]
    have he : (1:ℝ) * ((1 + Real.logb 2 (f / 440)) * 12) / 12
        = 1 + (1:ℝ) * (Real.logb 2 (f / 440) * 12) / 12 := by ring
    rw [he, Real.rpow_add (by norm_num : (0:ℝ) < 2), Real.rpow_one]
    ring

/-- Witness for C5: at keytrack 1, cutoff 1000 and frequency 440 the
hypothesis holds and the theorem yields the formula, bounds and octave
doubling there. -/
theorem c5_keytrack_cutoff_witness :
    (0:ℝ) < 440 ∧
    (computeKeytrackedCutoff (fun x => (2:ℝ) ^ x) (Real.logb 2)
          1 1000 440
        = specKeytrackedCutoff (fun x => (2:ℝ) ^ x) (Real.logb 2)
            1 1000 440 ∧
      20 ≤ computeKeytrackedCutoff (fun x => (2:ℝ) ^ x) (Real.logb 2)
          1 1000 440 ∧
      computeKeytrackedCutoff (fun x => (2:ℝ) ^ x) (Real.logb 2)
          1 1000 440 ≤ 20000 ∧
      preClampCutoff (fun x => (2:ℝ) ^ x) (Real.logb 2) 1 1000 (2 * 440)
        = 2 * preClampCutoff (fun x => (2:ℝ) ^ x) (Real.logb 2)
            1 1000 440) :=
  ⟨by norm_num, c5_keytrack_cutoff 1 1000 440 (by norm_num)⟩

/-- `makeDistortionCurve` (AudioEngine.ts lines 388-397) as a function
from the curve index `i < 44100` to the curve value:
`x = (i/(n-1))*2 - 1`, `k = amount*50`, value `((1+k)x)/(1+k|x|)`. -/
def makeDistortionCurve (amount : ℚ) : ℕ → ℚ := fun i =>
  let k := amount * 50
  let x := ((i : ℚ) / (44100 - 1)) * 2 - 1
  ((1 + k) * x) / (1 + k * |x|)

/-- An AudioParam automation call scheduled on the offline gain:
`setValueAtTime` or `linearRampToValueAtTime`. -/
inductive AutoEvent where
  | setValue (t v : ℚ)
  | rampTo (t v : ℚ)

/-- The looping noise source built when `noiseLevel > 0`: its gain, the
buffer length in frames, and the buffer contents. -/
structure NoiseBuf where
  gainValue : ℚ
  len : ℕ
  data : ℕ → ℚ

/-- The oscillator wave of the offline voice: a basic type or a
periodic wave built from the custom sample spectrum. -/
inductive OscWave where
  | basic (w : Wave)
  | periodic (spec : List (Option ℚ) × List (Option ℚ))

/-- Everything `renderNoteToWav` (AudioEngine.ts lines 1004-1061)
schedules into the OfflineAudioContext before rendering starts: the
node-graph values, the optional noise bed, the oscillator wave and
frequency, the envelope automation events on the voice gain, and the
oscillator start/stop times. -/
structure RenderGraph where
  sampleRate : ℕ
  frames : ℕ
  outGainValue : ℚ
  filterCutoff : ℚ
  filterQ : ℚ
  distCurve : ℕ → ℚ
  noise : Option NoiseBuf
  oscWave : OscWave
  oscFreqValue : ℚ
  envEvents : List AutoEvent
  oscStartAt : ℚ
  oscStopAt : ℚ

/-- The graph-construction part of `renderNoteToWav` (lines
1006-1062).  `rng i` is the value of the i-th `Math.random()` call; it
is consulted only when `noiseLevel > 0`.  `exp2` stands for
`Math.pow(2, -)`.  The fifth automation call passes
`vGain.gain.value`, which still reads the directly assigned value `0`
because offline rendering has not started when it executes. -/
def buildRenderGraph (T : TrigModel ℚ) (exp2 : ℚ → ℚ) (p : Params)
    (note seconds : ℚ) (rng : ℕ → ℚ) : RenderGraph :=
  let aMin := max (1/1000) p.adsr.attack
  let dMin := max (1/1000) p.adsr.decay
  let tail := min (3/2) (max (1/20) p.adsr.release)
  let gateOff := max (1/20) (seconds - tail - 1/50)
  { sampleRate := 44100
    frames := (⌊(44100 : ℚ) * seconds⌋).toNat
    outGainValue := p.currentMaster
    filterCutoff := p.filterCutoff
    filterQ := p.filterQ
    distCurve := makeDistortionCurve p.distAmount
    noise := if 0 < p.noiseLevel then
        some { gainValue := p.noiseLevel,
               len := (44100 * max 1 ⌊seconds⌋).toNat,
               data := fun i => rng i * 2 - 1 }
      else none
    oscWave := match p.currentWave, p.customSamples with
      | Wave.custom, some s =>
          OscWave.periodic (buildPeriodicFromSamples T s 64)
      | w, _ => OscWave.basic w
    oscFreqValue := 440 * exp2 ((note - 69) / 12)
    envEvents :=
      [AutoEvent.setValue 0 0,
       AutoEvent.rampTo aMin 1,
       AutoEvent.rampTo (aMin + dMin) p.adsr.sustain,
       AutoEvent.setValue gateOff 0,
       AutoEvent.rampTo (gateOff + tail) 0]
    oscStartAt := 0
    oscStopAt := seconds }

/-- `renderNoteToWav`: build the offline graph, run the DSP renderer
`R` (the OfflineAudioContext implementation, external to this
repository) on it, and encode the rendered channel with `encodeWav`
at 44100 Hz. -/
def renderNoteToWav (T : TrigModel ℚ) (exp2 : ℚ → ℚ) (p : Params)
    (note seconds : ℚ) (rng : ℕ → ℚ) (R : RenderGraph → List ℚ) :
    List ℕ :=
  encodeWav (R (buildRenderGraph T exp2 p note seconds rng)) 44100

/-- Parameters with the noise bed enabled. -/
def noisyParams : Params := { defaultParams with noiseLevel := 1 }

theorem encodeWav_byte45 (s : ℚ) :
    (encodeWav [s] 44100).getD 45 0
      = toUint16 (encInt16 s) / 256 % 256 := by
  rw [encodeWav_eq_wavBytes]
  show (wavBytes [s] 44100).getD (44 + 2 * 0 + 1) 0 = _
  rw [wavBytes_data_byte1 [s] 44100 0,
    (pcmData_getD [s] 0 (by norm_num)).2]
  rfl

/-- Claim C3 (amended): when the noise level is zero (so the noise bed
is not built), the offline render is a deterministic function of the
parameter state, note and duration — the random-number stream does not
influence the scheduled graph, so any DSP renderer produces identical
bytes across runs. -/
theorem c3_offline_render_deterministic (T : TrigModel ℚ)
    (exp2 : ℚ → ℚ) (p : Params) (note seconds : ℚ)
    (h : p.noiseLevel ≤ 0) (rng1 rng2 : ℕ → ℚ)
    (R : RenderGraph → List ℚ) :
    renderNoteToWav T exp2 p note seconds rng1 R
      = renderNoteToWav T exp2 p note seconds rng2 R := by
  unfold renderNoteToWav buildRenderGraph
  simp only [if_neg (not_lt.mpr h)]

/-- Witness for C3: the default parameters have noise level 0, and the
theorem yields equal output for two different random streams there. -/
theorem c3_offline_render_deterministic_witness :
    defaultParams.noiseLevel ≤ 0 ∧
    renderNoteToWav trigZero (fun x => x) defaultParams 69 2
        (fun _ => 0) (fun _ => [])
      = renderNoteToWav trigZero (fun x => x) defaultParams 69 2
        (fun _ => (1:ℚ)/2) (fun _ => []) :=
  ⟨le_refl 0,
    c3_offline_render_deterministic trigZero (fun x => x) defaultParams
      69 2 (le_refl 0) (fun _ => 0) (fun _ => (1:ℚ)/2) (fun _ => [])⟩

/-- Counterexample for C3 as stated: with noise level 1 the noise
buffer is filled from `Math.random()`, so two runs whose random draws
differ feed different buffers to the renderer; a renderer that plays
the first noise frame yields `encodeWav [-1]` in one run and
`encodeWav [0]` in the other, and those differ at byte 45 (128 vs 0).
The render is NOT deterministic for every parameter state. -/
theorem c3_counterexample :
    ¬ (∀ (R : RenderGraph → List ℚ) (rng1 rng2 : ℕ → ℚ),
        renderNoteToWav trigZero (fun x => x) noisyParams 69 2 rng1 R
          = renderNoteToWav trigZero (fun x => x) noisyParams 69 2
              rng2 R) := by
  intro hdet
  have hn : (0 : ℚ) < noisyParams.noiseLevel := by
    show (0 : ℚ) < 1
    norm_num
  have h := hdet
    (fun g => match g.noise with
      | some nb => [nb.data 0]
      | none => [0])
    (fun _ => 0) (fun _ => 1/2)
  have hargL : (fun (g : RenderGraph) => match g.noise with
      | some nb => [nb.data 0]
      | none => [0])
      (buildRenderGraph trigZero (fun x => x) noisyParams 69 2
        (fun _ => 0)) = [(0 : ℚ) * 2 - 1] := by
    unfold buildRenderGraph
    rw [if_pos hn]
  have hargR : (fun (g : RenderGraph) => match g.noise with
      | some nb => [nb.data 0]
      | none => [0])
      (buildRenderGraph trigZero (fun x => x) noisyParams 69 2
        (fun _ => 1/2)) = [(1 : ℚ)/2 * 2 - 1] := by
    unfold buildRenderGraph
    rw [if_pos hn]
  unfold renderNoteToWav at h
  rw [hargL, hargR,
    show (0 : ℚ) * 2 - 1 = -1 from by norm_num,
    show (1 : ℚ)/2 * 2 - 1 = 0 from by norm_num] at h
  have h45 : (encodeWav [(-1 : ℚ)] 44100).getD 45 0
      = (encodeWav [(0 : ℚ)] 44100).getD 45 0 := by rw [h]
  rw [encodeWav_byte45, encodeWav_byte45] at h45
  have e1 : encInt16 (-1) = -32768 := by
    have hc : clamp1 (-1) = -1 := by
      unfold clamp1
      rw [min_eq_right (by norm_num : (-1 : ℚ) ≤ 1), max_self]
    show (if clamp1 (-1) < 0 then jsTrunc (clamp1 (-1) * 32768)
        else jsTrunc (clamp1 (-1) * 32767)) = -32768
    rw [hc, if_pos (by norm_num : (-1 : ℚ) < 0),
      show (-1 : ℚ) * 32768 = -32768 from by norm_num]
    unfold jsTrunc
    rw [if_neg (by norm_num : ¬ (0 : ℚ) ≤ -32768)]
    rw [show -(-32768 : ℚ) = ((32768 : ℤ) : ℚ) from by norm_num,
      Int.floor_intCast]
  have e2 : encInt16 0 = 0 := by
    have hc : clamp1 0 = 0 := by
      unfold clamp1
      rw [min_eq_right (by norm_num : (0 : ℚ) ≤ 1),
        max_eq_right (by norm_num : (-1 : ℚ) ≤ 0)]
    show (if clamp1 0 < 0 then jsTrunc (clamp1 0 * 32768)
        else jsTrunc (clamp1 0 * 32767)) = 0
    rw [hc, if_neg (by norm_num : ¬ (0 : ℚ) < 0),
      show (0 : ℚ) * 32767 = ((0 : ℤ) : ℚ) from by norm_num]
    unfold jsTrunc
    rw [if_pos (by norm_num : (0 : ℚ) ≤ ((0 : ℤ) : ℚ)), Int.floor_intCast]
  rw [e1, e2] at h45
  exact absurd h45 (by decide)
